import Mathlib

/-!
RC grid simulation: the parallel time-stepping engine

A shallow embedding of `src/rc-grid-simulation.c` and proofs about it.

Modelling choices:

* `double` values are exact rationals (`ℚ`); `int` values are unbounded integers
  (`Int`), so index arithmetic never wraps around.
* The heap buffers `g_cur` and `g_prev` are lists of cells addressed by a flat index.
  Every load and store is bounds-checked; an access outside the buffer makes the
  computation return `none`.
* The global variables of the program are the fields of `Globals`, passed explicitly.
  Two ghost fields record history: `Globals.stores` (flat index of every store into
  `g_cur`) and `MainState.seen` (the globals as `main` finds them after each `barr2`).
* Threads are serialised. One computation phase, the code between the two barrier waits
  of `thread_func`, runs the passes of the workers one after the other in an order given
  by a `Schedule`. The store `g_U = sin(g_time)`, which `main` executes while a phase is
  running, takes effect either before or after that phase, as the `Schedule` says.
* `sin`, and the effect of `memset` on a cell it clears only in part, are uninterpreted
  functions (`LibFns`). Buffers returned by `malloc` have arbitrary contents.
* The text format of `output.txt`, timing and plotting are not modelled; a block of the
  output is the list of values printed.
* The setup part of `main` takes the values `atoi` returns for the arguments; the
  remainder by a zero thread count is an outcome of its own, and whether a call of
  `pthread_create` fails is a parameter.
* For the barrier protocol, `main` and `thread_func` are also given as the sequence of
  their actions in program order (`main_events`, `thread_func_events`).
-/

namespace RCGrid

/-! ## Constants and global state -/

/-- Source line 36: `const double g_C = 1.0;` -/
def g_C : ℚ := 1

/-- Source line 37: `const double g_R = 5.0;` -/
def g_R : ℚ := 5

/-- Source line 40: `const double g_h = 1.0;` -/
def g_h : ℚ := 1

/-- Source line 35: the value `g_U` is initialised with. -/
def g_U_init : ℚ := 220

/-- The record `ThreadRecord` of the source (the thread handle `tid` is left out):
the inclusive range of rows `fromRow .. toRow` a worker owns (`from` and `to` in the source). -/
structure ThreadRecord where
  fromRow : Int
  toRow : Int
deriving DecidableEq

/-- The global variables read or written by `thread_func` and by the loop of `main`.
The field `stores` is a ghost log: the flat index of every store into `g_cur`, in program
order. -/
structure Globals where
  g_cur : List ℚ
  g_prev : List ℚ
  g_rows : Int
  g_cols : Int
  g_time : Int
  g_U : ℚ
  stores : List Int
deriving DecidableEq

/-- Counter values of `for (int x = lo; x < hi; x++)`, in the order they are taken. -/
def intRange (lo hi : Int) : List Int :=
  (List.range (hi - lo).toNat).map (fun (d : Nat) => lo + (d : Int))

/-! ## `thread_func` -/

/-- A bounds-checked load `g_prev[idx]`. -/
def readPrev (s : Globals) (idx : Int) : Option ℚ :=
  if 0 ≤ idx then s.g_prev[idx.toNat]? else none

/-- A bounds-checked store `g_cur[idx] = v`, logged in `stores`. -/
def writeCur (s : Globals) (idx : Int) (v : ℚ) : Option Globals :=
  if 0 ≤ idx ∧ idx.toNat < s.g_cur.length then
    some { s with g_cur := s.g_cur.set idx.toNat v, stores := s.stores ++ [idx] }
  else none

/-- The value of `tmp` after the `else if` chain of source lines 69-93, for a node that
is not one of the four corners. -/
def neighbourTmp (s : Globals) (i j : Int) : Option ℚ :=
  if j = 0 then do
    let a ← readPrev s ((i - 1) * s.g_cols + j)
    let b ← readPrev s (i * s.g_cols + j + 1)
    let c ← readPrev s ((i + 1) * s.g_cols + j)
    pure (a + b + c)
  else if j = s.g_cols - 1 then do
    let a ← readPrev s (i * s.g_cols + j - 1)
    let b ← readPrev s ((i - 1) * s.g_cols + j)
    let c ← readPrev s ((i + 1) * s.g_cols + j)
    pure (a + b + c)
  else if i = 0 then do
    let a ← readPrev s (i * s.g_cols + j - 1)
    let b ← readPrev s (i * s.g_cols + j + 1)
    let c ← readPrev s ((i + 1) * s.g_cols + j)
    pure (a + b + c)
  else if i = s.g_rows - 1 then do
    let a ← readPrev s (i * s.g_cols + j - 1)
    let b ← readPrev s ((i - 1) * s.g_cols + j)
    let c ← readPrev s (i * s.g_cols + j + 1)
    pure (a + b + c)
  else do
    let a ← readPrev s (i * s.g_cols + j - 1)
    let b ← readPrev s ((i - 1) * s.g_cols + j)
    let c ← readPrev s (i * s.g_cols + j + 1)
    let d ← readPrev s ((i + 1) * s.g_cols + j)
    pure (a + b + c + d)

/-- The body of the inner loop of `thread_func` (source lines 53-99) for node `(i, j)`. -/
def nodeBody (s : Globals) (i j : Int) : Option Globals :=
  if j = 0 ∧ i = 0 then
    writeCur s (i * s.g_cols + j) s.g_U
  else if j = s.g_cols - 1 ∧ i = 0 then
    writeCur s (i * s.g_cols + j) s.g_U
  else if j = 0 ∧ i = s.g_rows - 1 then
    writeCur s (i * s.g_cols + j) s.g_U
  else if j = s.g_cols - 1 ∧ i = s.g_rows - 1 then
    writeCur s (i * s.g_cols + j) s.g_U
  else do
    let tmp ← neighbourTmp s i j
    let p ← readPrev s (i * s.g_cols + j)
    writeCur s (i * s.g_cols + j) (g_h * tmp / g_C / g_R + p * (1 - 4 * g_h / g_C / g_R))

/-- The loop `for (int j = 0; j < g_cols; j++)` of `thread_func` for row `i`. -/
def columnLoop (i : Int) (s : Globals) : Option Globals :=
  (intRange 0 s.g_cols).foldlM (fun st j => nodeBody st i j) s

/-- One computation pass of `thread_func`: the loop
`for (int i = thread->from; i <= thread->to; i++)` between the two barrier waits. -/
def thread_func_pass (thread : ThreadRecord) (s : Globals) : Option Globals :=
  (intRange thread.fromRow (thread.toRow + 1)).foldlM (fun st i => columnLoop i st) s

/-- One computation phase: the passes of the workers listed in `order`, one after the other. -/
def computePhase (order : List ThreadRecord) (s : Globals) : Option Globals :=
  order.foldlM (fun st t => thread_func_pass t st) s

/-! ## `main` -/

/-- The row ranges assigned in `main` (source lines 151-160): `j = g_rows / nthread`,
worker `i` gets `from = j * i` and `to = j * (i + 1) - 1`. Integer division is the
truncating division of C. -/
def partitionRanges (g_rows nthread : Int) : List ThreadRecord :=
  (intRange 0 nthread).map
    (fun i => { fromRow := Int.tdiv g_rows nthread * i,
                toRow := Int.tdiv g_rows nthread * (i + 1) - 1 })

/-- The check of source line 141 passes: `g_rows % nthread` is zero (C remainder). -/
def divisible (g_rows nthread : Int) : Prop :=
  Int.tmod g_rows nthread = 0

instance (g_rows nthread : Int) : Decidable (divisible g_rows nthread) := by
  unfold divisible; infer_instance

/-- What the program takes from its environment: `sinOf t` stands for `sin(t)` and
`clearLow b v` for the `double` left when the first `b` of the 8 bytes of `v` are set to
zero (`0 < b < 8`). Both are left uninterpreted. -/
structure LibFns where
  sinOf : Int → ℚ
  clearLow : Nat → ℚ → ℚ

/-- How one run is serialised. `order k` lists the workers in the order their passes
take effect in the phase that iteration `k` of the loop of `main` waits for at `barr2`;
`sourceFirst k` tells whether the store `g_U = sin(g_time)` of iteration `k`, which `main`
executes while that phase is running, takes effect before the workers read `g_U`. -/
structure Schedule where
  order : Int → List ThreadRecord
  sourceFirst : Int → Bool

/-- The call `memcpy(dst, src, sizeof(double) * n)`: the first `n` cells of `src` replace
the first `n` cells of `dst`. -/
def memcpyCells (dst src : List ℚ) (n : Nat) : List ℚ :=
  src.take n ++ dst.drop n

/-- The call `memset(buf, 0, nbytes)` on a buffer of 8-byte cells: a cell whose 8 bytes
all lie below `nbytes` becomes `0`, a cell cut by the limit has its low bytes cleared,
the other cells keep their value. -/
def memsetZero (lib : LibFns) (buf : List ℚ) (nbytes : Nat) : List ℚ :=
  buf.mapIdx (fun idx v =>
    if 8 * (idx + 1) ≤ nbytes then 0
    else if 8 * idx < nbytes then lib.clearLow (nbytes - 8 * idx) v
    else v)

/-- State of the controller: the globals, the blocks written to `output.txt` (each with
the value of the loop counter `k` that wrote it), and a ghost record `seen` of the globals
as the controller finds them each time it returns from `barr2`. -/
structure MainState where
  mem : Globals
  out : List (Int × List ℚ)
  seen : List Globals

/-- The block of values printed by source lines 195-200: `g_prev[i * g_cols + j]` for
`i < g_rows`, `j < g_cols`, i.e. the first `g_rows * g_cols` cells in row-major order. -/
def snapshot (m : Globals) : List ℚ :=
  m.g_prev.take (m.g_rows * m.g_cols).toNat

/-- What `main` does after `barr2` in one iteration (source lines 195-204): print the
block, `memcpy(g_prev, g_cur, ...)`, `memset(g_cur, 0, g_rows * g_cols)`. -/
def swapPhase (lib : LibFns) (m : Globals) : Globals :=
  { m with
    g_prev := memcpyCells m.g_prev m.g_cur (m.g_rows * m.g_cols).toNat,
    g_cur := memsetZero lib m.g_cur (m.g_rows * m.g_cols).toNat }

/-- Iteration `k` of the loop of `main` (source lines 183-208), together with the
computation phase that runs between the preceding `barr1` and the `barr2` of this
iteration. -/
def loopBody (lib : LibFns) (sch : Schedule) (st : MainState) (k : Int) : Option MainState := do
  let m1 ←
    if sch.sourceFirst k then
      computePhase (sch.order k) { st.mem with g_U := lib.sinOf st.mem.g_time }
    else
      (computePhase (sch.order k) st.mem).map (fun m => { m with g_U := lib.sinOf m.g_time })
  pure { mem := swapPhase lib m1, out := st.out ++ [(k, snapshot m1)], seen := st.seen ++ [m1] }

/-- The globals when `main` reaches its first `barr1`: the arguments, the initial `g_U`,
and two buffers whose contents `prev0` and `cur0` are whatever `malloc` returned. -/
def initGlobals (rows cols time : Int) (prev0 cur0 : List ℚ) : Globals :=
  { g_cur := cur0, g_prev := prev0, g_rows := rows, g_cols := cols, g_time := time,
    g_U := g_U_init, stores := [] }

/-- The loop `for (int k = 1; k < g_time + 2; k++)` of `main`, from the first `barr1` to
`fclose`. The phase started by the last `barr1` is not part of it: `main` does not wait
for it. -/
def main_loop (lib : LibFns) (sch : Schedule) (rows cols time : Int) (prev0 cur0 : List ℚ) :
    Option MainState :=
  (intRange 1 (time + 2)).foldlM (loopBody lib sch)
    { mem := initGlobals rows cols time prev0 cur0, out := [], seen := [] }

/-! ## Notions used in the statements -/

/-- Flat index of node `c = (i, j)` in a row-major buffer: `i * g_cols + j`. -/
def cellIdx (cols : Int) (c : Int × Int) : Int :=
  c.1 * cols + c.2

/-- Node `c = (i, j)` lies in the mesh of `rows × cols` nodes. -/
def InGrid (rows cols : Int) (c : Int × Int) : Prop :=
  0 ≤ c.1 ∧ c.1 < rows ∧ 0 ≤ c.2 ∧ c.2 < cols

instance (rows cols : Int) (c : Int × Int) : Decidable (InGrid rows cols c) := by
  unfold InGrid; infer_instance

/-- Node `(i, j)` is one of the four corners `(0,0)`, `(0,cols-1)`, `(rows-1,0)`,
`(rows-1,cols-1)`. -/
def isCorner (rows cols i j : Int) : Prop :=
  (i = 0 ∨ i = rows - 1) ∧ (j = 0 ∨ j = cols - 1)

instance (rows cols i j : Int) : Decidable (isCorner rows cols i j) := by
  unfold isCorner; infer_instance

/-- Value held by a grid buffer at node `(i, j)` (`0` when the index is outside). -/
def cellAt (cols : Int) (g : List ℚ) (i j : Int) : ℚ :=
  (g[(i * cols + j).toNat]?).getD 0

/-- The four neighbours of node `(i, j)`: up, down, left, right. -/
def neighbours (i j : Int) : List (Int × Int) :=
  [(i - 1, j), (i + 1, j), (i, j - 1), (i, j + 1)]

/-- The neighbours of node `(i, j)` that lie inside the grid. -/
def neighboursInside (rows cols i j : Int) : List (Int × Int) :=
  (neighbours i j).filter (fun c => decide (InGrid rows cols c))

/-- The neighbour sum as the specification words it: the sum of `previous` over exactly
those of the four neighbours that lie inside the grid. -/
def neighbourSum (rows cols : Int) (prev : List ℚ) (i j : Int) : ℚ :=
  ((neighboursInside rows cols i j).map (fun c => cellAt cols prev c.1 c.2)).sum

/-- The update rule as the specification writes it:
`h * neighborSum / (C * R) + previous[i,j] * (1 - 4h / (C * R))`. -/
def updateRule (rows cols : Int) (prev : List ℚ) (i j : Int) : ℚ :=
  g_h * neighbourSum rows cols prev i j / (g_C * g_R) +
    cellAt cols prev i j * (1 - 4 * g_h / (g_C * g_R))

/-- The specification's table of node classes: a corner is clamped to the source value,
every other node follows the update rule. -/
def nodeSpec (rows cols : Int) (U : ℚ) (prev : List ℚ) (i j : Int) : ℚ :=
  if isCorner rows cols i j then U else updateRule rows cols prev i j

/-- The grid of the next time step computed node by node from `prev`, in row-major
order, with no reference to workers or row ranges. -/
def stepGrid (rows cols : Int) (U : ℚ) (prev : List ℚ) : List ℚ :=
  (List.range (rows * cols).toNat).map
    (fun (n : Nat) => nodeSpec rows cols U prev ((n : Int) / cols) ((n : Int) % cols))

/-- The value stored by `nodeBody` at node `(i, j)`, when all its loads are in range. -/
def nodeValue (s : Globals) (i j : Int) : Option ℚ :=
  if (j = 0 ∧ i = 0) ∨ (j = s.g_cols - 1 ∧ i = 0) ∨ (j = 0 ∧ i = s.g_rows - 1) ∨
      (j = s.g_cols - 1 ∧ i = s.g_rows - 1) then
    some s.g_U
  else do
    let tmp ← neighbourTmp s i j
    let p ← readPrev s (i * s.g_cols + j)
    pure (g_h * tmp / g_C / g_R + p * (1 - 4 * g_h / g_C / g_R))

/-- The nodes visited by `columnLoop` for row `i`, in order. -/
def rowCells (cols i : Int) : List (Int × Int) :=
  (intRange 0 cols).map (fun j => (i, j))

/-- The nodes visited by one pass of a worker, in order. -/
def passCells (cols : Int) (t : ThreadRecord) : List (Int × Int) :=
  (intRange t.fromRow (t.toRow + 1)).flatMap (rowCells cols)

/-- The loop body of `thread_func` run over a list of nodes. -/
def runCells (cells : List (Int × Int)) (s : Globals) : Option Globals :=
  cells.foldlM (fun st c => nodeBody st c.1 c.2) s

/-- The buffer `cur` after the stores of `nodeBody` for the nodes in `cells`, the values
being computed from the globals `s`. -/
def applyCells (s : Globals) (cells : List (Int × Int)) (cur : List ℚ) : List ℚ :=
  cells.foldl
    (fun b c => b.set (cellIdx s.g_cols c).toNat ((nodeValue s c.1 c.2).getD 0)) cur

/-- The launch parameters name a partition the program accepts: a positive worker count
that divides the number of rows. -/
def ValidWorkers (rows nthread : Int) : Prop :=
  0 < nthread ∧ divisible rows nthread

/-- The value of `g_U` the workers read in the phase that iteration `k` of the loop of
`main` waits for: the initial `220.0` in the first phase when the store of `sin(g_time)`
has not yet taken effect, `sin(g_time)` otherwise. -/
def sourceAt (lib : LibFns) (sch : Schedule) (time k : Int) : ℚ :=
  if k = 1 ∧ sch.sourceFirst k = false then g_U_init else lib.sinOf time

/-- The globals describe a mesh of at least `2 × 2` nodes with both buffers allocated
for `g_rows * g_cols` cells. -/
def GridShape (s : Globals) : Prop :=
  2 ≤ s.g_rows ∧ 2 ≤ s.g_cols ∧ s.g_prev.length = (s.g_rows * s.g_cols).toNat ∧
    s.g_cur.length = (s.g_rows * s.g_cols).toNat

/-- The grid after `p` computation phases, computed node by node from `prev0`, where
`src k` is the source value of the `k`-th phase. -/
def gridAfter (rows cols : Int) (src : Int → ℚ) (prev0 : List ℚ) : Nat → List ℚ
  | 0 => prev0
  | p + 1 => stepGrid rows cols (src ((p : Int) + 1)) (gridAfter rows cols src prev0 p)

/-- The `previous` grid of the single-step scenario: `4 × 4` nodes, `220` at the four
corners and `0` at every other node. -/
def scenarioPrev : List ℚ :=
  [220, 0, 0, 220, 0, 0, 0, 0, 0, 0, 0, 0, 220, 0, 0, 220]

/-- The globals of the single-step scenario, for a given content of `g_cur`. -/
def scenarioGlobals (cur : List ℚ) : Globals :=
  { g_cur := cur, g_prev := scenarioPrev, g_rows := 4, g_cols := 4, g_time := 0,
    g_U := 220, stores := [] }

/-- A mesh of `3 × 4` nodes used to instantiate the statements. -/
def sampleGlobals : Globals :=
  { g_cur := [9, 9, 9, 9, 9, 9, 9, 9, 9, 9, 9, 9],
    g_prev := [1, 2, 3, 4, 5, 6, 7, 8, 9, 10, 11, 12],
    g_rows := 3, g_cols := 4, g_time := 1, g_U := 220, stores := [] }

/-- What the controller holds after `p` iterations of the loop of `main`, stated with
`gridAfter`: `previous` is the grid after `p` phases, the blocks written so far are the
grids after `0, ..., p-1` phases tagged `1, ..., p`, and each entry `q` of `seen` has the
grid after `q` phases in `g_prev` and the grid after `q + 1` phases in `g_cur`. -/
def RunInv (lib : LibFns) (sch : Schedule) (rows cols time : Int) (prev0 : List ℚ)
    (p : Nat) (st : MainState) : Prop :=
  st.mem.g_rows = rows ∧ st.mem.g_cols = cols ∧ st.mem.g_time = time ∧
  st.mem.g_prev = gridAfter rows cols (sourceAt lib sch time) prev0 p ∧
  st.mem.g_cur.length = (rows * cols).toNat ∧
  st.mem.g_U = (if p = 0 then g_U_init else lib.sinOf time) ∧
  st.out = (List.range p).map
    (fun (q : Nat) => ((q : Int) + 1, gridAfter rows cols (sourceAt lib sch time) prev0 q)) ∧
  st.seen.length = p ∧
  ∀ (q : Nat) (m : Globals), st.seen[q]? = some m →
    m.g_prev = gridAfter rows cols (sourceAt lib sch time) prev0 q ∧
    m.g_cur = gridAfter rows cols (sourceAt lib sch time) prev0 (q + 1) ∧
    m.g_rows = rows ∧ m.g_cols = cols

/-- Library functions used to instantiate the statements: `sin` replaced by the
constant `1/2`, a partial clearing of a cell by the identity. -/
def sampleLib : LibFns :=
  { sinOf := fun _ => 1 / 2, clearLow := fun _ v => v }

/-- A schedule for a mesh of two rows and one worker, in which the store to `g_U` takes
effect after the workers of the same phase have read it. -/
def sampleSchedule : Schedule :=
  { order := fun _ => partitionRanges 2 1, sourceFirst := fun _ => false }

/-- A mesh of one row and three columns, on which the stencil of node `(0, 1)` loads
`g_prev[4]`, outside the three cells of the buffer. -/
def oneRowGlobals : Globals :=
  { g_cur := [0, 0, 0], g_prev := [1, 2, 3], g_rows := 1, g_cols := 3, g_time := 0,
    g_U := 220, stores := [] }

/-! ## Setup in `main` -/

/-- Source line 10. -/
def WRONG_ARGUMENTS_AMOUNT : Int := 1

/-- Source line 11. -/
def WRONG_SIMULATION_TIME_VALUE : Int := 2

/-- Source line 12. -/
def WRONG_THREADS_AMOUNT : Int := 3

/-- Source line 13. -/
def IMPOSSIBILITY_OF_PARALLEL_COMPUTING : Int := 4

/-- Source line 14. -/
def THREAD_CREATING_ERROR : Int := 5

/-- How the setup part of `main` (source lines 117-169) ends: `main` returns `code`
after having created the workers `created`; or the remainder `g_rows % nthread` is taken
with `nthread = 0`; or every worker has been created and `main` goes on to its first
`barr1`, the workers holding the ranges `workers`. -/
inductive SetupOutcome where
  | returned (code : Int) (created : List ThreadRecord)
  | divisionByZero
  | launched (workers : List ThreadRecord)
deriving DecidableEq

/-- The loop `for (int i = 0; i < nthread; i++)` of source lines 158-169 over the
remaining counter values: worker `i` gets its range, then `pthread_create` is called;
`createFails i` tells whether that call reports an error, in which case `main` returns
`THREAD_CREATING_ERROR`. `created` lists the workers created so far. -/
def createLoop (createFails : Int → Bool) (j : Int) :
    List Int → List ThreadRecord → SetupOutcome
  | [], created => SetupOutcome.launched created
  | i :: rest, created =>
    if createFails i then SetupOutcome.returned THREAD_CREATING_ERROR created
    else createLoop createFails j rest
      (created ++ [{ fromRow := j * i, toRow := j * (i + 1) - 1 }])

/-- The setup part of `main` (source lines 117-169). `argc` is the argument count and
`a1 .. a4` are the values `atoi` returns for `argv[1] .. argv[4]` (rows, columns,
simulation time, number of threads). -/
def mainSetup (createFails : Int → Bool) (argc a1 _a2 a3 a4 : Int) : SetupOutcome :=
  if argc < 5 ∨ argc > 5 then SetupOutcome.returned WRONG_ARGUMENTS_AMOUNT []
  else if a3 < 0 then SetupOutcome.returned WRONG_SIMULATION_TIME_VALUE []
  else if a4 < 0 then SetupOutcome.returned WRONG_THREADS_AMOUNT []
  else if a4 = 0 then SetupOutcome.divisionByZero
  else if Int.tmod a1 a4 ≠ 0 then
    SetupOutcome.returned IMPOSSIBILITY_OF_PARALLEL_COMPUTING []
  else createLoop createFails (Int.tdiv a1 a4) (intRange 0 a4) []

/-! ## Program order of the barrier waits -/

/-- The actions of `main` and of `thread_func` that matter for the barrier protocol:
a wait on `barr1`, a wait on `barr2`, the store `g_U = sin(g_time)`, the printing of a
block, the `memcpy`, the `memset`, and the computation pass of a worker. -/
inductive Event where
  | barr1
  | barr2
  | storeU
  | printBlock
  | memcpy
  | memset
  | compute
deriving DecidableEq

/-- The actions of one iteration of the loop of `main`, in program order (source lines
187, 191, 195-200, 203, 204, 207). -/
def main_iteration_events : List Event :=
  [Event.storeU, Event.barr2, Event.printBlock, Event.memcpy, Event.memset, Event.barr1]

/-- The actions of `main` from its first `barr1` (source line 177) to the end of the
loop `for (int k = 1; k < g_time + 2; k++)`, in program order. After the loop `main`
performs no further barrier wait and no join. -/
def main_events (time : Int) : List Event :=
  Event.barr1 :: (intRange 1 (time + 2)).flatMap (fun _ => main_iteration_events)

/-- The actions of `thread_func`, in program order: the loop
`for (int k = 0; k < g_time + 2; k++)` whose body waits on `barr1`, computes the rows of
the worker and waits on `barr2`. -/
def thread_func_events (time : Int) : List Event :=
  (intRange 0 (time + 2)).flatMap (fun _ => [Event.barr1, Event.compute, Event.barr2])

/-- The barrier waits of a sequence of actions. -/
def barrierWaits (es : List Event) : List Event :=
  es.filter (fun e => decide (e = Event.barr1 ∨ e = Event.barr2))

/-- The claim on the stores to `g_U`, read on the program order of the controller:
scanning the actions, `inPhase` holds from a wait on `barr1` to the following wait on
`barr2`; the result is `true` when no store to `g_U` is met while `inPhase` holds. -/
def storesOutsidePhase : Bool → List Event → Bool
  | _, [] => true
  | inPhase, e :: es =>
    match e with
    | Event.barr1 => storesOutsidePhase true es
    | Event.barr2 => storesOutsidePhase false es
    | Event.storeU => !inPhase && storesOutsidePhase inPhase es
    | _ => storesOutsidePhase inPhase es

/-- The barrier rounds of a run as seen by the controller and by one worker (all workers
wait alike, and a barrier releases only when the controller and every worker wait on
it): a round completes when both wait on the same barrier. The result is what the
controller and the worker still have to wait for when no further round can complete. -/
def rendezvous : List Event → List Event → List Event × List Event
  | c :: cs, w :: ws => if c = w then rendezvous cs ws else (c :: cs, w :: ws)
  | [], ws => ([], ws)
  | cs, [] => (cs, [])

/-! ## Counters and flat indices -/

theorem mem_intRange {lo hi x : Int} : x ∈ intRange lo hi ↔ lo ≤ x ∧ x < hi := by
  unfold intRange
  simp only [List.mem_map, List.mem_range]
  constructor
  · rintro ⟨d, hd, rfl⟩
    omega
  · intro h
    exact ⟨(x - lo).toNat, by omega, by omega⟩

theorem nodup_intRange (lo hi : Int) : (intRange lo hi).Nodup := by
  unfold intRange
  refine (List.nodup_range _).map ?_
  intro a b h
  simp only at h
  omega

theorem length_intRange (lo hi : Int) : (intRange lo hi).length = (hi - lo).toNat := by
  simp [intRange]

theorem intRange_succ {lo hi : Int} (h : lo ≤ hi) :
    intRange lo (hi + 1) = intRange lo hi ++ [hi] := by
  unfold intRange
  have e : (hi + 1 - lo).toNat = (hi - lo).toNat + 1 := by omega
  rw [e, List.range_succ, List.map_append]
  simp only [List.map_cons, List.map_nil]
  congr 2
  omega

theorem cellIdx_nonneg {cols : Int} {c : Int × Int} (hc : 0 ≤ cols) (h1 : 0 ≤ c.1)
    (h2 : 0 ≤ c.2) : 0 ≤ cellIdx cols c := by
  unfold cellIdx
  have := mul_nonneg h1 hc
  omega

theorem cellIdx_lt {rows cols : Int} {c : Int × Int} (h : InGrid rows cols c) :
    cellIdx cols c < rows * cols := by
  obtain ⟨h1, h2, h3, h4⟩ := h
  unfold cellIdx
  have hc : 0 ≤ cols := by omega
  have : (c.1 + 1) * cols ≤ rows * cols := mul_le_mul_of_nonneg_right (by omega) hc
  have e : (c.1 + 1) * cols = c.1 * cols + cols := by ring
  omega

theorem cellIdx_inj {cols : Int} {c d : Int × Int} (hc : 0 ≤ c.2 ∧ c.2 < cols)
    (hd : 0 ≤ d.2 ∧ d.2 < cols) (e : cellIdx cols c = cellIdx cols d) : c = d := by
  unfold cellIdx at e
  have hpos : 0 ≤ cols := by omega
  have h1 : c.1 = d.1 := by
    rcases lt_trichotomy c.1 d.1 with h | h | h
    · have : (c.1 + 1) * cols ≤ d.1 * cols := mul_le_mul_of_nonneg_right (by omega) hpos
      have e2 : (c.1 + 1) * cols = c.1 * cols + cols := by ring
      omega
    · exact h
    · have : (d.1 + 1) * cols ≤ c.1 * cols := mul_le_mul_of_nonneg_right (by omega) hpos
      have e2 : (d.1 + 1) * cols = d.1 * cols + cols := by ring
      omega
  have h2 : c.2 = d.2 := by
    rw [h1] at e
    omega
  exact Prod.ext h1 h2

/-! ## The loop body and runs over lists of nodes -/

theorem writeCur_some {s s' : Globals} {idx : Int} {v : ℚ} (h : writeCur s idx v = some s') :
    0 ≤ idx ∧ idx.toNat < s.g_cur.length ∧
      s' = { s with g_cur := s.g_cur.set idx.toNat v, stores := s.stores ++ [idx] } := by
  unfold writeCur at h
  split_ifs at h with hb
  exact ⟨hb.1, hb.2, (Option.some.inj h).symm⟩

theorem writeCur_of_bounds {s : Globals} {idx : Int} (v : ℚ) (h0 : 0 ≤ idx)
    (h1 : idx.toNat < s.g_cur.length) :
    writeCur s idx v =
      some { s with g_cur := s.g_cur.set idx.toNat v, stores := s.stores ++ [idx] } := by
  unfold writeCur
  rw [if_pos ⟨h0, h1⟩]

theorem nodeBody_eq (s : Globals) (i j : Int) :
    nodeBody s i j = (nodeValue s i j).bind (fun v => writeCur s (i * s.g_cols + j) v) := by
  unfold nodeBody nodeValue
  by_cases h1 : j = 0 ∧ i = 0
  · rw [if_pos h1, if_pos (Or.inl h1)]
    rfl
  by_cases h2 : j = s.g_cols - 1 ∧ i = 0
  · rw [if_neg h1, if_pos h2, if_pos (Or.inr (Or.inl h2))]
    rfl
  by_cases h3 : j = 0 ∧ i = s.g_rows - 1
  · rw [if_neg h1, if_neg h2, if_pos h3, if_pos (Or.inr (Or.inr (Or.inl h3)))]
    rfl
  by_cases h4 : j = s.g_cols - 1 ∧ i = s.g_rows - 1
  · rw [if_neg h1, if_neg h2, if_neg h3, if_pos h4, if_pos (Or.inr (Or.inr (Or.inr h4)))]
    rfl
  have h5 : ¬ ((j = 0 ∧ i = 0) ∨ (j = s.g_cols - 1 ∧ i = 0) ∨ (j = 0 ∧ i = s.g_rows - 1) ∨
      (j = s.g_cols - 1 ∧ i = s.g_rows - 1)) := by
    rintro (h | h | h | h)
    · exact h1 h
    · exact h2 h
    · exact h3 h
    · exact h4 h
  rw [if_neg h1, if_neg h2, if_neg h3, if_neg h4, if_neg h5]
  cases neighbourTmp s i j <;> cases readPrev s (i * s.g_cols + j) <;> rfl

theorem nodeValue_update (s : Globals) (cur : List ℚ) (st : List Int) (i j : Int) :
    nodeValue { s with g_cur := cur, stores := st } i j = nodeValue s i j := by
  simp only [nodeValue, neighbourTmp, readPrev]

theorem applyCells_update (s : Globals) (cur : List ℚ) (st : List Int)
    (cells : List (Int × Int)) (b : List ℚ) :
    applyCells { s with g_cur := cur, stores := st } cells b = applyCells s cells b := by
  unfold applyCells
  simp only [nodeValue_update]

theorem runCells_cons (c : Int × Int) (cs : List (Int × Int)) (s : Globals) :
    runCells (c :: cs) s = (nodeBody s c.1 c.2).bind (runCells cs) := by
  simp [runCells, List.foldlM_cons]

theorem runCells_append (as bs : List (Int × Int)) (s : Globals) :
    runCells (as ++ bs) s = (runCells as s).bind (runCells bs) := by
  simp [runCells, List.foldlM_append]

theorem runCells_result (cells : List (Int × Int)) :
    ∀ (s s' : Globals), runCells cells s = some s' →
      s' = { s with g_cur := applyCells s cells s.g_cur,
                    stores := s.stores ++ cells.map (cellIdx s.g_cols) } := by
  induction cells with
  | nil =>
    intro s s' h
    simp [runCells] at h
    subst h
    simp [applyCells]
  | cons c cs ih =>
    intro s s' h
    rw [runCells_cons, nodeBody_eq] at h
    obtain ⟨s1, h1, h2⟩ := Option.bind_eq_some.mp h
    obtain ⟨v, hv, hw⟩ := Option.bind_eq_some.mp h1
    obtain ⟨-, -, rfl⟩ := writeCur_some hw
    have := ih _ _ h2
    rw [this, applyCells_update]
    simp [applyCells, hv, cellIdx]

theorem runCells_ok (cells : List (Int × Int)) :
    ∀ (s : Globals), (∀ c ∈ cells, (nodeValue s c.1 c.2).isSome) →
      (∀ c ∈ cells, 0 ≤ cellIdx s.g_cols c ∧ (cellIdx s.g_cols c).toNat < s.g_cur.length) →
      ∃ s', runCells cells s = some s' := by
  induction cells with
  | nil =>
    intro s _ _
    exact ⟨s, by simp [runCells]⟩
  | cons c cs ih =>
    intro s hv hb
    obtain ⟨v, hv1⟩ := Option.isSome_iff_exists.mp (hv c (List.mem_cons_self _ _))
    have hb1 := hb c (List.mem_cons_self _ _)
    unfold cellIdx at hb1
    rw [runCells_cons, nodeBody_eq, hv1]
    simp only [Option.some_bind]
    rw [writeCur_of_bounds v hb1.1 hb1.2]
    simp only [Option.some_bind]
    apply ih
    · intro d hd
      rw [nodeValue_update]
      exact hv d (List.mem_cons_of_mem _ hd)
    · intro d hd
      have := hb d (List.mem_cons_of_mem _ hd)
      simpa using this

theorem runCells_g_cols {cells : List (Int × Int)} {s s' : Globals}
    (h : runCells cells s = some s') : s'.g_cols = s.g_cols := by
  rw [runCells_result cells s s' h]

theorem length_applyCells (s : Globals) (cells : List (Int × Int)) :
    ∀ cur : List ℚ, (applyCells s cells cur).length = cur.length := by
  induction cells with
  | nil => intro cur; rfl
  | cons c cs ih =>
    intro cur
    simp only [applyCells, List.foldl_cons] at ih ⊢
    rw [ih, List.length_set]

theorem applyCells_append (s : Globals) (as bs : List (Int × Int)) (cur : List ℚ) :
    applyCells s (as ++ bs) cur = applyCells s bs (applyCells s as cur) := by
  simp [applyCells, List.foldl_append]

theorem getElem?_applyCells_of_not_mem (s : Globals) (cells : List (Int × Int)) (n : Nat) :
    ∀ cur : List ℚ, (∀ c ∈ cells, (cellIdx s.g_cols c).toNat ≠ n) →
      (applyCells s cells cur)[n]? = cur[n]? := by
  induction cells with
  | nil => intro cur _; rfl
  | cons c cs ih =>
    intro cur h
    simp only [applyCells, List.foldl_cons] at ih ⊢
    rw [ih _ (fun d hd => h d (List.mem_cons_of_mem _ hd)), List.getElem?_set]
    rw [if_neg (h c (List.mem_cons_self _ _))]

theorem getElem?_applyCells_of_mem (s : Globals) (cells : List (Int × Int)) (cur : List ℚ)
    (c : Int × Int) (hc : c ∈ cells)
    (huniq : ∀ d ∈ cells, (cellIdx s.g_cols d).toNat = (cellIdx s.g_cols c).toNat → d = c)
    (hlt : (cellIdx s.g_cols c).toNat < cur.length) :
    (applyCells s cells cur)[(cellIdx s.g_cols c).toNat]? =
      some ((nodeValue s c.1 c.2).getD 0) := by
  induction cells using List.reverseRecOn with
  | nil => simp at hc
  | append_singleton l a ih =>
    rw [applyCells_append]
    simp only [applyCells, List.foldl_cons, List.foldl_nil]
    rw [List.getElem?_set]
    by_cases e : (cellIdx s.g_cols a).toNat = (cellIdx s.g_cols c).toNat
    · have hac : a = c := huniq a (by simp) e
      have hl := length_applyCells s l cur
      simp only [applyCells] at hl
      rw [if_pos e, if_pos (by rw [hl, e]; exact hlt), hac]
    · rw [if_neg e]
      have hcl : c ∈ l := by
        rcases List.mem_append.mp hc with h | h
        · exact h
        · simp only [List.mem_singleton] at h
          exact absurd (by rw [h]) e
      exact ih hcl (fun d hd => huniq d (List.mem_append_left _ hd))

/-! ## The loops of `thread_func` as runs over lists of nodes -/

theorem columnLoop_eq (i : Int) (s : Globals) :
    columnLoop i s = runCells (rowCells s.g_cols i) s := by
  unfold columnLoop runCells rowCells
  rw [List.foldlM_map]

theorem foldlM_runCells {α : Type} (f : Int → α → List (Int × Int))
    (g : α → Globals → Option Globals)
    (hg : ∀ a s, g a s = runCells (f s.g_cols a) s) :
    ∀ (l : List α) (s : Globals),
      l.foldlM (fun st a => g a st) s = runCells (l.flatMap (f s.g_cols)) s := by
  intro l
  induction l with
  | nil => intro s; simp [runCells]
  | cons a as ih =>
    intro s
    rw [List.foldlM_cons, List.flatMap_cons, runCells_append, hg]
    cases h : runCells (f s.g_cols a) s with
    | none => rfl
    | some s1 =>
      simp only [Option.some_bind, Option.bind_eq_bind]
      rw [ih s1, runCells_g_cols h]

theorem thread_func_pass_eq (t : ThreadRecord) (s : Globals) :
    thread_func_pass t s = runCells (passCells s.g_cols t) s := by
  unfold thread_func_pass passCells
  exact foldlM_runCells (fun cols i => rowCells cols i) columnLoop columnLoop_eq _ s

theorem computePhase_eq (order : List ThreadRecord) (s : Globals) :
    computePhase order s = runCells (order.flatMap (passCells s.g_cols)) s := by
  unfold computePhase
  exact foldlM_runCells (fun cols t => passCells cols t) thread_func_pass thread_func_pass_eq _ s

theorem mem_passCells {cols : Int} {t : ThreadRecord} {c : Int × Int} :
    c ∈ passCells cols t ↔ t.fromRow ≤ c.1 ∧ c.1 ≤ t.toRow ∧ 0 ≤ c.2 ∧ c.2 < cols := by
  unfold passCells rowCells
  simp only [List.mem_flatMap, List.mem_map, mem_intRange]
  constructor
  · rintro ⟨i, hi, j, hj, rfl⟩
    simp only
    omega
  · intro h
    exact ⟨c.1, by omega, c.2, by omega, rfl⟩

/-! ## The value stored at a node -/

theorem readPrev_inGrid {s : Globals} {rows cols : Int}
    (hlen : s.g_prev.length = (rows * cols).toNat) {c : Int × Int} (h : InGrid rows cols c)
    {idx : Int} (e : idx = c.1 * cols + c.2) :
    readPrev s idx = some (cellAt cols s.g_prev c.1 c.2) := by
  have h0 : 0 ≤ cellIdx cols c := cellIdx_nonneg (by unfold InGrid at h; omega) h.1 h.2.2.1
  have h1 := cellIdx_lt h
  unfold cellIdx at h0 h1
  subst e
  unfold readPrev cellAt
  rw [if_pos h0]
  have hlt : (c.1 * cols + c.2).toNat < s.g_prev.length := by omega
  rw [List.getElem?_eq_getElem hlt]
  rfl

theorem neighbourSum_eq (rows cols : Int) (prev : List ℚ) (i j : Int) :
    neighbourSum rows cols prev i j =
      (if InGrid rows cols (i - 1, j) then cellAt cols prev (i - 1) j else 0) +
      (if InGrid rows cols (i + 1, j) then cellAt cols prev (i + 1) j else 0) +
      (if InGrid rows cols (i, j - 1) then cellAt cols prev i (j - 1) else 0) +
      (if InGrid rows cols (i, j + 1) then cellAt cols prev i (j + 1) else 0) := by
  simp only [neighbourSum, neighboursInside, neighbours, List.filter_cons, List.filter_nil,
    decide_eq_true_eq]
  split_ifs <;> simp <;> ring

theorem corner_iff (rows cols i j : Int) :
    ((j = 0 ∧ i = 0) ∨ (j = cols - 1 ∧ i = 0) ∨ (j = 0 ∧ i = rows - 1) ∨
      (j = cols - 1 ∧ i = rows - 1)) ↔ isCorner rows cols i j := by
  unfold isCorner
  constructor
  · rintro (h | h | h | h) <;> simp [h.1, h.2]
  · rintro ⟨h1 | h1, h2 | h2⟩ <;> simp [h1, h2]

theorem nodeValue_corner {s : Globals} {i j : Int} (h : isCorner s.g_rows s.g_cols i j) :
    nodeValue s i j = some s.g_U := by
  unfold nodeValue
  rw [if_pos ((corner_iff _ _ _ _).mpr h)]

theorem stencil_arith (t p : ℚ) :
    g_h * t / g_C / g_R + p * (1 - 4 * g_h / g_C / g_R) =
      g_h * t / (g_C * g_R) + p * (1 - 4 * g_h / (g_C * g_R)) := by
  unfold g_h g_C g_R
  ring

theorem nodeValue_eq_spec {s : Globals} {i j : Int} (hr : 2 ≤ s.g_rows) (hc : 2 ≤ s.g_cols)
    (hlen : s.g_prev.length = (s.g_rows * s.g_cols).toNat)
    (h : InGrid s.g_rows s.g_cols (i, j)) :
    nodeValue s i j = some (nodeSpec s.g_rows s.g_cols s.g_U s.g_prev i j) := by
  obtain ⟨hi0, hi1, hj0, hj1⟩ := h
  simp only at hi0 hi1 hj0 hj1
  unfold nodeSpec
  by_cases hcor : isCorner s.g_rows s.g_cols i j
  · rw [if_pos hcor, nodeValue_corner hcor]
  rw [if_neg hcor]
  unfold nodeValue
  rw [if_neg (fun hh => hcor ((corner_iff _ _ _ _).mp hh))]
  have hself : readPrev s (i * s.g_cols + j) = some (cellAt s.g_cols s.g_prev i j) :=
    readPrev_inGrid (c := (i, j)) hlen ⟨hi0, hi1, hj0, hj1⟩ rfl
  unfold isCorner at hcor
  unfold updateRule
  rw [neighbourSum_eq, hself]
  unfold neighbourTmp
  by_cases b1 : j = 0
  · have hi : 0 < i ∧ i < s.g_rows - 1 := by
      constructor <;> by_contra hn <;> apply hcor <;> constructor <;> omega
    have n1 : InGrid s.g_rows s.g_cols (i - 1, j) := ⟨by simp; omega, by simp; omega, hj0, hj1⟩
    have n2 : InGrid s.g_rows s.g_cols (i + 1, j) := ⟨by simp; omega, by simp; omega, hj0, hj1⟩
    have n3 : ¬ InGrid s.g_rows s.g_cols (i, j - 1) := by unfold InGrid; simp; omega
    have n4 : InGrid s.g_rows s.g_cols (i, j + 1) := ⟨hi0, hi1, by simp; omega, by simp; omega⟩
    rw [if_pos b1, if_pos n1, if_pos n2, if_neg n3, if_pos n4,
      readPrev_inGrid hlen n1 rfl, readPrev_inGrid hlen n4 (by simp only; ring),
      readPrev_inGrid hlen n2 rfl]
    simp only [Option.bind_eq_bind, Option.some_bind, Option.pure_def, Option.some.injEq]
    rw [stencil_arith]
    ring
  by_cases b2 : j = s.g_cols - 1
  · have hi : 0 < i ∧ i < s.g_rows - 1 := by
      constructor <;> by_contra hn <;> apply hcor <;> constructor <;> omega
    have n1 : InGrid s.g_rows s.g_cols (i - 1, j) := ⟨by simp; omega, by simp; omega, hj0, hj1⟩
    have n2 : InGrid s.g_rows s.g_cols (i + 1, j) := ⟨by simp; omega, by simp; omega, hj0, hj1⟩
    have n3 : InGrid s.g_rows s.g_cols (i, j - 1) := ⟨hi0, hi1, by simp; omega, by simp; omega⟩
    have n4 : ¬ InGrid s.g_rows s.g_cols (i, j + 1) := by unfold InGrid; simp; omega
    rw [if_neg b1, if_pos b2, if_pos n1, if_pos n2, if_pos n3, if_neg n4,
      readPrev_inGrid hlen n3 (by simp only; ring), readPrev_inGrid hlen n1 rfl,
      readPrev_inGrid hlen n2 rfl]
    simp only [Option.bind_eq_bind, Option.some_bind, Option.pure_def, Option.some.injEq]
    rw [stencil_arith]
    ring
  by_cases b3 : i = 0
  · have n1 : ¬ InGrid s.g_rows s.g_cols (i - 1, j) := by unfold InGrid; simp; omega
    have n2 : InGrid s.g_rows s.g_cols (i + 1, j) := ⟨by simp; omega, by simp; omega, hj0, hj1⟩
    have n3 : InGrid s.g_rows s.g_cols (i, j - 1) := ⟨hi0, hi1, by simp; omega, by simp; omega⟩
    have n4 : InGrid s.g_rows s.g_cols (i, j + 1) := ⟨hi0, hi1, by simp; omega, by simp; omega⟩
    rw [if_neg b1, if_neg b2, if_pos b3, if_neg n1, if_pos n2, if_pos n3, if_pos n4,
      readPrev_inGrid hlen n3 (by simp only; ring),
      readPrev_inGrid hlen n4 (by simp only; ring), readPrev_inGrid hlen n2 rfl]
    simp only [Option.bind_eq_bind, Option.some_bind, Option.pure_def, Option.some.injEq]
    rw [stencil_arith]
    ring
  by_cases b4 : i = s.g_rows - 1
  · have n1 : InGrid s.g_rows s.g_cols (i - 1, j) := ⟨by simp; omega, by simp; omega, hj0, hj1⟩
    have n2 : ¬ InGrid s.g_rows s.g_cols (i + 1, j) := by unfold InGrid; simp; omega
    have n3 : InGrid s.g_rows s.g_cols (i, j - 1) := ⟨hi0, hi1, by simp; omega, by simp; omega⟩
    have n4 : InGrid s.g_rows s.g_cols (i, j + 1) := ⟨hi0, hi1, by simp; omega, by simp; omega⟩
    rw [if_neg b1, if_neg b2, if_neg b3, if_pos b4, if_pos n1, if_neg n2, if_pos n3, if_pos n4,
      readPrev_inGrid hlen n3 (by simp only; ring), readPrev_inGrid hlen n1 rfl,
      readPrev_inGrid hlen n4 (by simp only; ring)]
    simp only [Option.bind_eq_bind, Option.some_bind, Option.pure_def, Option.some.injEq]
    rw [stencil_arith]
    ring
  · have n1 : InGrid s.g_rows s.g_cols (i - 1, j) := ⟨by simp; omega, by simp; omega, hj0, hj1⟩
    have n2 : InGrid s.g_rows s.g_cols (i + 1, j) := ⟨by simp; omega, by simp; omega, hj0, hj1⟩
    have n3 : InGrid s.g_rows s.g_cols (i, j - 1) := ⟨hi0, hi1, by simp; omega, by simp; omega⟩
    have n4 : InGrid s.g_rows s.g_cols (i, j + 1) := ⟨hi0, hi1, by simp; omega, by simp; omega⟩
    rw [if_neg b1, if_neg b2, if_neg b3, if_neg b4, if_pos n1, if_pos n2, if_pos n3, if_pos n4,
      readPrev_inGrid hlen n3 (by simp only; ring), readPrev_inGrid hlen n1 rfl,
      readPrev_inGrid hlen n4 (by simp only; ring), readPrev_inGrid hlen n2 rfl]
    simp only [Option.bind_eq_bind, Option.some_bind, Option.pure_def, Option.some.injEq]
    rw [stencil_arith]
    ring

/-! ## The partition computed by `main` -/

theorem tdiv_mul_of_divisible {rows n : Int} (hd : divisible rows n) :
    Int.tdiv rows n * n = rows :=
  Int.tdiv_mul_cancel (Int.dvd_of_tmod_eq_zero hd)

theorem tdiv_pos_of_divisible {rows n : Int} (hr : 0 < rows) (hn : 0 < n)
    (hd : divisible rows n) : 0 < Int.tdiv rows n := by
  have e := tdiv_mul_of_divisible hd
  by_contra hq
  have : Int.tdiv rows n * n ≤ 0 := mul_nonpos_of_nonpos_of_nonneg (by omega) (by omega)
  omega

theorem mem_partitionRanges {rows n : Int} {t : ThreadRecord} :
    t ∈ partitionRanges rows n ↔
      ∃ i, 0 ≤ i ∧ i < n ∧ t.fromRow = Int.tdiv rows n * i ∧
        t.toRow = Int.tdiv rows n * (i + 1) - 1 := by
  unfold partitionRanges
  simp only [List.mem_map, mem_intRange]
  constructor
  · rintro ⟨i, hi, rfl⟩
    exact ⟨i, hi.1, hi.2, rfl, rfl⟩
  · rintro ⟨i, h0, h1, h2, h3⟩
    refine ⟨i, ⟨h0, h1⟩, ?_⟩
    cases t
    simp only at h2 h3
    simp [h2, h3]

theorem range_bounds {q n i : Int} (hq : 0 < q) (h0 : 0 ≤ i) (h1 : i < n) :
    0 ≤ q * i ∧ q * i ≤ q * (i + 1) - 1 ∧ q * (i + 1) - 1 ≤ q * n - 1 := by
  have a : 0 ≤ q * i := mul_nonneg (by omega) h0
  have b : q * (i + 1) = q * i + q := by ring
  have c : q * (i + 1) ≤ q * n := mul_le_mul_of_nonneg_left (by omega) (by omega)
  omega

theorem range_of_row {q n r : Int} (hq : 0 < q) (h0 : 0 ≤ r) (h1 : r < q * n) :
    0 ≤ r / q ∧ r / q < n ∧ q * (r / q) ≤ r ∧ r ≤ q * (r / q + 1) - 1 := by
  have e := Int.ediv_add_emod r q
  have m0 := Int.emod_nonneg r (show q ≠ 0 by omega)
  have m1 := Int.emod_lt_of_pos r hq
  have d0 : 0 ≤ r / q := Int.ediv_nonneg h0 (by omega)
  have b : q * (r / q + 1) = q * (r / q) + q := by ring
  refine ⟨d0, ?_, by omega, by omega⟩
  by_contra hn
  have : q * n ≤ q * (r / q) := mul_le_mul_of_nonneg_left (by omega) (by omega)
  omega

theorem range_unique {q r i k : Int} (hq : 0 < q) (hi : q * i ≤ r ∧ r ≤ q * (i + 1) - 1)
    (hk : q * k ≤ r ∧ r ≤ q * (k + 1) - 1) : i = k := by
  rcases lt_trichotomy i k with h | h | h
  · have : q * (i + 1) ≤ q * k := mul_le_mul_of_nonneg_left (by omega) (by omega)
    omega
  · exact h
  · have : q * (k + 1) ≤ q * i := mul_le_mul_of_nonneg_left (by omega) (by omega)
    omega

theorem mem_partition_cells {rows cols n : Int} (hr : 0 < rows) (hv : ValidWorkers rows n)
    {c : Int × Int} :
    c ∈ (partitionRanges rows n).flatMap (passCells cols) ↔ InGrid rows cols c := by
  obtain ⟨hn, hd⟩ := hv
  have hq := tdiv_pos_of_divisible hr hn hd
  have e := tdiv_mul_of_divisible hd
  have e2 : Int.tdiv rows n * n = rows := e
  rw [mul_comm] at e
  simp only [List.mem_flatMap, mem_partitionRanges, mem_passCells]
  unfold InGrid
  constructor
  · rintro ⟨t, ⟨i, h0, h1, hf, ht⟩, h2, h3, h4, h5⟩
    have := range_bounds hq h0 h1
    rw [mul_comm (Int.tdiv rows n) n, e] at this
    omega
  · rintro ⟨h1, h2, h3, h4⟩
    have := range_of_row (n := n) hq h1 (by rw [e2]; exact h2)
    exact ⟨⟨_, _⟩, ⟨c.1 / Int.tdiv rows n, this.1, this.2.1, rfl, rfl⟩,
      this.2.2.1, this.2.2.2, h3, h4⟩

theorem mem_order_cells {rows cols n : Int} (hr : 0 < rows) (hv : ValidWorkers rows n)
    {order : List ThreadRecord} (hp : order.Perm (partitionRanges rows n)) {c : Int × Int} :
    c ∈ order.flatMap (passCells cols) ↔ InGrid rows cols c := by
  rw [(hp.flatMap_right (passCells cols)).mem_iff]
  exact mem_partition_cells hr hv

theorem cell_of_index (rows : Int) {cols : Int} (hc : 0 < cols) {n : Nat}
    (h : n < (rows * cols).toNat) :
    InGrid rows cols ((n : Int) / cols, (n : Int) % cols) ∧
      cellIdx cols ((n : Int) / cols, (n : Int) % cols) = n := by
  have e := Int.ediv_add_emod (n : Int) cols
  have m0 := Int.emod_nonneg (n : Int) (show cols ≠ 0 by omega)
  have m1 := Int.emod_lt_of_pos (n : Int) hc
  have d0 : 0 ≤ (n : Int) / cols := Int.ediv_nonneg (by omega) (by omega)
  have hn : (n : Int) < rows * cols := by omega
  refine ⟨⟨d0, ?_, m0, m1⟩, ?_⟩
  · simp only
    by_contra hh
    have : rows * cols ≤ ((n : Int) / cols) * cols :=
      mul_le_mul_of_nonneg_right (by omega) (by omega)
    have e3 : ((n : Int) / cols) * cols = cols * ((n : Int) / cols) := by ring
    omega
  · unfold cellIdx
    simp only
    have e3 : ((n : Int) / cols) * cols = cols * ((n : Int) / cols) := by ring
    omega

/-! ## What a run over nodes of the grid leaves in `g_cur` -/

theorem toNat_cellIdx_inj {rows cols : Int} {c d : Int × Int} (hc : InGrid rows cols c)
    (hd : InGrid rows cols d) (e : (cellIdx cols c).toNat = (cellIdx cols d).toNat) :
    c = d := by
  have hcols : 0 ≤ cols := by unfold InGrid at hc; omega
  have h1 := cellIdx_nonneg hcols hc.1 hc.2.2.1
  have h2 := cellIdx_nonneg hcols hd.1 hd.2.2.1
  exact cellIdx_inj ⟨hc.2.2.1, hc.2.2.2⟩ ⟨hd.2.2.1, hd.2.2.2⟩ (by omega)

theorem runCells_spec {s : Globals} (hs : GridShape s) {cells : List (Int × Int)}
    (hin : ∀ c ∈ cells, InGrid s.g_rows s.g_cols c) :
    ∃ s', runCells cells s = some s' ∧
      s'.g_prev = s.g_prev ∧ s'.g_rows = s.g_rows ∧ s'.g_cols = s.g_cols ∧
      s'.g_time = s.g_time ∧ s'.g_U = s.g_U ∧
      s'.stores = s.stores ++ cells.map (cellIdx s.g_cols) ∧
      s'.g_cur.length = s.g_cur.length ∧
      (∀ c ∈ cells, s'.g_cur[(cellIdx s.g_cols c).toNat]? =
        some (nodeSpec s.g_rows s.g_cols s.g_U s.g_prev c.1 c.2)) ∧
      (∀ n, (∀ c ∈ cells, (cellIdx s.g_cols c).toNat ≠ n) → s'.g_cur[n]? = s.g_cur[n]?) := by
  obtain ⟨hr, hc, hlp, hlc⟩ := hs
  have hb : ∀ c ∈ cells,
      0 ≤ cellIdx s.g_cols c ∧ (cellIdx s.g_cols c).toNat < s.g_cur.length := by
    intro c hcm
    have h := hin c hcm
    have h0 := cellIdx_nonneg (show 0 ≤ s.g_cols by omega) h.1 h.2.2.1
    have h1 := cellIdx_lt h
    exact ⟨h0, by omega⟩
  have hv : ∀ c ∈ cells, nodeValue s c.1 c.2 =
      some (nodeSpec s.g_rows s.g_cols s.g_U s.g_prev c.1 c.2) :=
    fun c hcm => nodeValue_eq_spec hr hc hlp (hin c hcm)
  obtain ⟨s', hrun⟩ := runCells_ok cells s (fun c hcm => by rw [hv c hcm]; rfl) hb
  have hres := runCells_result cells s s' hrun
  refine ⟨s', hrun, ?_, ?_, ?_, ?_, ?_, ?_, ?_, ?_, ?_⟩
  · rw [hres]
  · rw [hres]
  · rw [hres]
  · rw [hres]
  · rw [hres]
  · rw [hres]
  · rw [hres]
    exact length_applyCells s cells s.g_cur
  · intro c hcm
    rw [hres]
    simp only
    rw [getElem?_applyCells_of_mem s cells s.g_cur c hcm
      (fun d hd e => toNat_cellIdx_inj (hin d hd) (hin c hcm) e) (hb c hcm).2, hv c hcm]
    rfl
  · intro n hn
    rw [hres]
    exact getElem?_applyCells_of_not_mem s cells n s.g_cur hn

theorem length_stepGrid (rows cols : Int) (U : ℚ) (prev : List ℚ) :
    (stepGrid rows cols U prev).length = (rows * cols).toNat := by
  simp [stepGrid]

theorem getElem?_stepGrid {rows cols : Int} (U : ℚ) (prev : List ℚ) {c : Int × Int}
    (h : InGrid rows cols c) :
    (stepGrid rows cols U prev)[(cellIdx cols c).toNat]? =
      some (nodeSpec rows cols U prev c.1 c.2) := by
  have hcols : 0 < cols := by unfold InGrid at h; omega
  have h0 := cellIdx_nonneg (le_of_lt hcols) h.1 h.2.2.1
  have h1 := cellIdx_lt h
  have hlt : (cellIdx cols c).toNat < (rows * cols).toNat := by omega
  obtain ⟨hg, he⟩ := cell_of_index rows hcols hlt
  have hcast : (((cellIdx cols c).toNat : Nat) : Int) = cellIdx cols c :=
    Int.toNat_of_nonneg h0
  have hcd : (((((cellIdx cols c).toNat : Nat) : Int) / cols,
      (((cellIdx cols c).toNat : Nat) : Int) % cols) : Int × Int) = c :=
    cellIdx_inj ⟨hg.2.2.1, hg.2.2.2⟩ ⟨h.2.2.1, h.2.2.2⟩ (by rw [he, hcast])
  unfold stepGrid
  rw [List.getElem?_map, List.getElem?_range hlt]
  simp only [Option.map_some']
  have e1 := congrArg Prod.fst hcd
  have e2 := congrArg Prod.snd hcd
  simp only at e1 e2
  rw [e1, e2]

theorem cellAt_stepGrid {rows cols : Int} (U : ℚ) (prev : List ℚ) {i j : Int}
    (h : InGrid rows cols (i, j)) :
    cellAt cols (stepGrid rows cols U prev) i j = nodeSpec rows cols U prev i j := by
  have := getElem?_stepGrid U prev h
  unfold cellIdx at this
  unfold cellAt
  rw [this]
  rfl

theorem computePhase_spec {s : Globals} (hs : GridShape s) {n : Int}
    (hv : ValidWorkers s.g_rows n) {order : List ThreadRecord}
    (hp : order.Perm (partitionRanges s.g_rows n)) :
    ∃ s', computePhase order s = some s' ∧
      s'.g_cur = stepGrid s.g_rows s.g_cols s.g_U s.g_prev ∧
      s'.g_prev = s.g_prev ∧ s'.g_rows = s.g_rows ∧ s'.g_cols = s.g_cols ∧
      s'.g_time = s.g_time ∧ s'.g_U = s.g_U ∧
      s'.stores = s.stores ++ (order.flatMap (passCells s.g_cols)).map (cellIdx s.g_cols) := by
  have hr : 0 < s.g_rows := by unfold GridShape at hs; omega
  have hc : 0 < s.g_cols := by unfold GridShape at hs; omega
  have hmem : ∀ c, c ∈ order.flatMap (passCells s.g_cols) ↔ InGrid s.g_rows s.g_cols c :=
    fun c => mem_order_cells hr hv hp
  obtain ⟨s', hrun, h1, h2, h3, h4, h5, h6, h7, h8, -⟩ :=
    runCells_spec hs (fun c hcm => (hmem c).mp hcm)
  refine ⟨s', by rw [computePhase_eq]; exact hrun, ?_, h1, h2, h3, h4, h5, h6⟩
  apply List.ext_getElem?
  intro k
  by_cases hk : k < (s.g_rows * s.g_cols).toNat
  · obtain ⟨hg, he⟩ := cell_of_index s.g_rows hc hk
    have e1 := h8 _ ((hmem _).mpr hg)
    have e2 := getElem?_stepGrid s.g_U s.g_prev hg
    rw [he, Int.toNat_ofNat] at e1 e2
    rw [e1, e2]
  · rw [List.getElem?_eq_none (by rw [h7, hs.2.2.2]; omega),
      List.getElem?_eq_none (by rw [length_stepGrid]; omega)]

theorem getElem?_partitionRanges {rows n : Int} {k : Nat} {t : ThreadRecord} :
    (partitionRanges rows n)[k]? = some t ↔
      (k : Int) < n ∧ t.fromRow = Int.tdiv rows n * k ∧
        t.toRow = Int.tdiv rows n * ((k : Int) + 1) - 1 := by
  unfold partitionRanges intRange
  rw [List.getElem?_map, List.getElem?_map]
  by_cases hk : k < (n - 0).toNat
  · rw [List.getElem?_range hk]
    simp only [Option.map_some', Option.some.injEq, zero_add]
    constructor
    · rintro rfl
      exact ⟨by omega, rfl, rfl⟩
    · rintro ⟨-, h2, h3⟩
      cases t
      simp only at h2 h3
      simp [h2, h3]
  · rw [List.getElem?_eq_none (by simpa using hk)]
    simp only [Option.map_none']
    constructor
    · intro h
      cases h
    · rintro ⟨h, -⟩
      omega

/-- C2. For `rows > 0` and a worker count `n > 0` dividing `rows`, the ranges assigned
in `main` are one per worker; every range is non-empty and lies inside `[0, rows-1]`;
the range of worker `k+1` starts right after the range of worker `k` ends; and every row
of `[0, rows-1]` lies in the range of exactly one worker. -/
theorem partition_complete (rows n : Int) (hr : 0 < rows) (hn : 0 < n)
    (hd : divisible rows n) :
    (partitionRanges rows n).length = n.toNat ∧
    (∀ (k : Nat) (t : ThreadRecord), (partitionRanges rows n)[k]? = some t →
      t.fromRow ≤ t.toRow ∧ 0 ≤ t.fromRow ∧ t.toRow ≤ rows - 1) ∧
    (∀ (k : Nat) (t u : ThreadRecord), (partitionRanges rows n)[k]? = some t →
      (partitionRanges rows n)[k + 1]? = some u → u.fromRow = t.toRow + 1) ∧
    (∀ r : Int, 0 ≤ r → r ≤ rows - 1 →
      ∃! k : Nat, ∃ t, (partitionRanges rows n)[k]? = some t ∧ t.fromRow ≤ r ∧ r ≤ t.toRow) := by
  have hq := tdiv_pos_of_divisible hr hn hd
  have e : Int.tdiv rows n * n = rows := tdiv_mul_of_divisible hd
  refine ⟨?_, ?_, ?_, ?_⟩
  · simp [partitionRanges, length_intRange]
  · intro k t ht
    obtain ⟨h1, h2, h3⟩ := getElem?_partitionRanges.mp ht
    have := range_bounds hq (show (0 : Int) ≤ k by omega) h1
    rw [e] at this
    omega
  · intro k t u ht hu
    obtain ⟨-, -, h3⟩ := getElem?_partitionRanges.mp ht
    obtain ⟨-, h5, -⟩ := getElem?_partitionRanges.mp hu
    rw [h5, h3]
    push_cast
    ring
  · intro r h0 h1
    have hrow := range_of_row (n := n) hq h0 (by rw [e]; omega)
    refine ⟨(r / Int.tdiv rows n).toNat, ?_, ?_⟩
    · have hc : (((r / Int.tdiv rows n).toNat : Nat) : Int) = r / Int.tdiv rows n :=
        Int.toNat_of_nonneg hrow.1
      refine ⟨⟨_, _⟩, getElem?_partitionRanges.mpr ⟨by rw [hc]; exact hrow.2.1, rfl, rfl⟩, ?_, ?_⟩
      · simp only
        rw [hc]
        exact hrow.2.2.1
      · simp only
        rw [hc]
        exact hrow.2.2.2
    · rintro k ⟨t, ht, h2, h3⟩
      obtain ⟨-, h4, h5⟩ := getElem?_partitionRanges.mp ht
      have := range_unique hq (i := (k : Int)) (k := r / Int.tdiv rows n) (r := r)
        ⟨by omega, by omega⟩ ⟨hrow.2.2.1, hrow.2.2.2⟩
      omega

/-- Witness for C2: four rows shared by two workers. -/
theorem partition_complete_witness :
    (0 : Int) < 4 ∧ (0 : Int) < 2 ∧ divisible 4 2 ∧ (partitionRanges 4 2).length = 2 ∧
    ∀ r : Int, 0 ≤ r → r ≤ 4 - 1 →
      ∃! k : Nat, ∃ t, (partitionRanges 4 2)[k]? = some t ∧ t.fromRow ≤ r ∧ r ≤ t.toRow :=
  ⟨by decide, by decide, by decide,
    (partition_complete 4 2 (by decide) (by decide) (by decide)).1,
    (partition_complete 4 2 (by decide) (by decide) (by decide)).2.2.2⟩

/-! ## One pass of one worker -/

theorem thread_func_pass_spec {s : Globals} (hs : GridShape s) {t : ThreadRecord}
    (h0 : 0 ≤ t.fromRow) (h1 : t.toRow ≤ s.g_rows - 1) :
    ∃ s', thread_func_pass t s = some s' ∧
      s'.g_prev = s.g_prev ∧ s'.g_rows = s.g_rows ∧ s'.g_cols = s.g_cols ∧
      s'.g_time = s.g_time ∧ s'.g_U = s.g_U ∧
      s'.stores = s.stores ++ (passCells s.g_cols t).map (cellIdx s.g_cols) ∧
      s'.g_cur.length = s.g_cur.length ∧
      (∀ i j, t.fromRow ≤ i → i ≤ t.toRow → 0 ≤ j → j < s.g_cols →
        cellAt s.g_cols s'.g_cur i j = nodeSpec s.g_rows s.g_cols s.g_U s.g_prev i j) ∧
      (∀ i j, InGrid s.g_rows s.g_cols (i, j) → (i < t.fromRow ∨ t.toRow < i) →
        cellAt s.g_cols s'.g_cur i j = cellAt s.g_cols s.g_cur i j) := by
  have hin : ∀ c ∈ passCells s.g_cols t, InGrid s.g_rows s.g_cols c := by
    intro c hc
    have := mem_passCells.mp hc
    unfold InGrid
    omega
  obtain ⟨s', hrun, a1, a2, a3, a4, a5, a6, a7, a8, a9⟩ := runCells_spec hs hin
  refine ⟨s', by rw [thread_func_pass_eq]; exact hrun, a1, a2, a3, a4, a5, a6, a7, ?_, ?_⟩
  · intro i j hi0 hi1 hj0 hj1
    have := a8 (i, j) (mem_passCells.mpr ⟨hi0, hi1, hj0, hj1⟩)
    unfold cellIdx at this
    unfold cellAt
    simp only at this
    rw [this]
    rfl
  · intro i j hg ho
    have := a9 (cellIdx s.g_cols (i, j)).toNat (by
      intro c hc e
      have hh := toNat_cellIdx_inj (hin c hc) hg e
      have hm := mem_passCells.mp hc
      rw [hh] at hm
      simp only at hm
      omega)
    unfold cellIdx at this
    unfold cellAt
    simp only at this
    rw [this]

theorem length_neighboursInside {rows cols i j : Int} (hr : 2 ≤ rows) (hc : 2 ≤ cols)
    (h : InGrid rows cols (i, j)) (hnc : ¬ isCorner rows cols i j) :
    (neighboursInside rows cols i j).length =
      if i = 0 ∨ i = rows - 1 ∨ j = 0 ∨ j = cols - 1 then 3 else 4 := by
  unfold InGrid at h
  unfold isCorner at hnc
  simp only at h
  simp only [neighboursInside, neighbours, List.filter_cons, List.filter_nil,
    decide_eq_true_eq, InGrid]
  split_ifs <;> simp only [List.length_cons, List.length_nil] <;> omega

/-- C3. For a mesh of at least `2 × 2` nodes and a worker whose row range lies in the
grid, one computation pass stores at every non-corner node `(i, j)` of the range the
value `h * S / (C * R) + previous[i,j] * (1 - 4h / (C * R))`, where `S` sums `previous`
over the neighbours of `(i, j)` that lie inside the grid; these are three for a node on
the boundary and four for an interior node, and the same factor `1 - 4h / (C * R)` is
used in both cases. -/
theorem stencil_update (s : Globals) (t : ThreadRecord) (i j : Int) (hs : GridShape s)
    (h0 : 0 ≤ t.fromRow) (h1 : t.toRow ≤ s.g_rows - 1)
    (hi : t.fromRow ≤ i ∧ i ≤ t.toRow) (hj : 0 ≤ j ∧ j < s.g_cols)
    (hnc : ¬ isCorner s.g_rows s.g_cols i j) :
    ∃ s', thread_func_pass t s = some s' ∧
      cellAt s.g_cols s'.g_cur i j =
        g_h * neighbourSum s.g_rows s.g_cols s.g_prev i j / (g_C * g_R) +
          cellAt s.g_cols s.g_prev i j * (1 - 4 * g_h / (g_C * g_R)) ∧
      (neighboursInside s.g_rows s.g_cols i j).length =
        if i = 0 ∨ i = s.g_rows - 1 ∨ j = 0 ∨ j = s.g_cols - 1 then 3 else 4 := by
  obtain ⟨s', hrun, -, -, -, -, -, -, -, a8, -⟩ := thread_func_pass_spec hs h0 h1
  refine ⟨s', hrun, ?_, ?_⟩
  · rw [a8 i j hi.1 hi.2 hj.1 hj.2]
    unfold nodeSpec
    rw [if_neg hnc]
    rfl
  · exact length_neighboursInside hs.1 hs.2.1 ⟨by simp only; omega, by simp only; omega,
      hj.1, hj.2⟩ hnc

theorem gridShape_sample : GridShape sampleGlobals := by
  unfold GridShape
  decide

/-- Witness for C3: node `(1, 0)` of the sample mesh, on the left boundary. -/
theorem stencil_update_witness :
    GridShape sampleGlobals ∧ ¬ isCorner 3 4 1 0 ∧
    ∃ s', thread_func_pass ⟨0, 2⟩ sampleGlobals = some s' ∧
      cellAt 4 s'.g_cur 1 0 =
        g_h * neighbourSum 3 4 sampleGlobals.g_prev 1 0 / (g_C * g_R) +
          cellAt 4 sampleGlobals.g_prev 1 0 * (1 - 4 * g_h / (g_C * g_R)) ∧
      (neighboursInside 3 4 1 0).length = 3 :=
  ⟨gridShape_sample, by decide,
    stencil_update sampleGlobals ⟨0, 2⟩ 1 0 gridShape_sample (by decide) (by decide)
      (by decide) (by decide) (by decide)⟩

/-- C5. For a mesh of at least `2 × 2` nodes and a row range `[from, to]` inside the
grid, one computation pass leaves every cell of `current` in a row outside the range
unchanged, leaves `previous` unchanged, and stores in the rows of the range values that
do not depend on what `current` held before: started from any other content of
`current`, the pass leaves the same values there. -/
theorem pass_frame (s : Globals) (t : ThreadRecord) (hs : GridShape s)
    (h0 : 0 ≤ t.fromRow) (_h01 : t.fromRow ≤ t.toRow) (h1 : t.toRow ≤ s.g_rows - 1) :
    ∃ s', thread_func_pass t s = some s' ∧
      s'.g_cur.length = s.g_cur.length ∧
      (∀ i j, InGrid s.g_rows s.g_cols (i, j) → (i < t.fromRow ∨ t.toRow < i) →
        cellAt s.g_cols s'.g_cur i j = cellAt s.g_cols s.g_cur i j) ∧
      s'.g_prev = s.g_prev ∧
      (∀ cur2 : List ℚ, cur2.length = s.g_cur.length →
        ∃ s2', thread_func_pass t { s with g_cur := cur2 } = some s2' ∧
          ∀ i j, t.fromRow ≤ i → i ≤ t.toRow → 0 ≤ j → j < s.g_cols →
            cellAt s.g_cols s2'.g_cur i j = cellAt s.g_cols s'.g_cur i j) := by
  obtain ⟨s', hrun, a1, -, -, -, -, -, a7, a8, a9⟩ := thread_func_pass_spec hs h0 h1
  refine ⟨s', hrun, a7, a9, a1, ?_⟩
  intro cur2 hlen
  have hs2 : GridShape { s with g_cur := cur2 } :=
    ⟨hs.1, hs.2.1, hs.2.2.1, by rw [← hs.2.2.2]; exact hlen⟩
  obtain ⟨s2', hrun2, -, -, -, -, -, -, -, b8, -⟩ :=
    thread_func_pass_spec (t := t) hs2 h0 h1
  refine ⟨s2', hrun2, ?_⟩
  intro i j hi0 hi1 hj0 hj1
  rw [a8 i j hi0 hi1 hj0 hj1]
  exact b8 i j hi0 hi1 hj0 hj1

/-- Witness for C5: the worker owning row `1` of the sample mesh. -/
theorem pass_frame_witness :
    GridShape sampleGlobals ∧
    ∃ s', thread_func_pass ⟨1, 1⟩ sampleGlobals = some s' ∧ s'.g_prev = sampleGlobals.g_prev :=
  ⟨gridShape_sample,
    (pass_frame sampleGlobals ⟨1, 1⟩ gridShape_sample (by decide) (by decide) (by decide)).imp
      (fun _ h => ⟨h.1, h.2.2.2.1⟩)⟩

/-! ## One phase of all workers -/

theorem readPrev_isSome (s : Globals) (idx : Int) (h0 : 0 ≤ idx)
    (h1 : idx < (s.g_prev.length : Int)) : ∃ v, readPrev s idx = some v := by
  unfold readPrev
  rw [if_pos h0]
  exact ⟨_, List.getElem?_eq_getElem (by omega)⟩

theorem nodeValue_isSome {s : Globals} {i j : Int} (hr : 1 ≤ s.g_rows) (hc : 1 ≤ s.g_cols)
    (hok : 2 ≤ s.g_rows ∨ s.g_cols ≤ 2)
    (hlen : s.g_prev.length = (s.g_rows * s.g_cols).toNat)
    (h : InGrid s.g_rows s.g_cols (i, j)) : (nodeValue s i j).isSome := by
  by_cases hbig : 2 ≤ s.g_rows ∧ 2 ≤ s.g_cols
  · rw [nodeValue_eq_spec hbig.1 hbig.2 hlen h]
    rfl
  obtain ⟨hi0, hi1, hj0, hj1⟩ := h
  simp only at hi0 hi1 hj0 hj1
  by_cases hcor : isCorner s.g_rows s.g_cols i j
  · rw [nodeValue_corner hcor]
    rfl
  have hc1 : s.g_cols = 1 := by
    by_contra hne
    apply hcor
    unfold isCorner
    constructor <;> omega
  have hj : j = 0 := by omega
  have hi : 0 < i ∧ i < s.g_rows - 1 := by
    unfold isCorner at hcor
    constructor <;> by_contra hn <;> apply hcor <;> constructor <;> omega
  have hl : (s.g_prev.length : Int) = s.g_rows := by
    rw [hlen, hc1, mul_one]
    omega
  unfold nodeValue
  rw [if_neg (fun hh => hcor ((corner_iff _ _ _ _).mp hh))]
  unfold neighbourTmp
  rw [if_pos hj, hc1, hj]
  obtain ⟨a, ha⟩ := readPrev_isSome s ((i - 1) * 1 + 0) (by omega) (by omega)
  obtain ⟨b, hb⟩ := readPrev_isSome s (i * 1 + 0 + 1) (by omega) (by omega)
  obtain ⟨c, hc'⟩ := readPrev_isSome s ((i + 1) * 1 + 0) (by omega) (by omega)
  obtain ⟨d, hd⟩ := readPrev_isSome s (i * 1 + 0) (by omega) (by omega)
  rw [ha, hb, hc', hd]
  rfl

theorem computePhase_total {s : Globals} {n : Int} {order : List ThreadRecord}
    (hr : 1 ≤ s.g_rows) (hc : 1 ≤ s.g_cols) (hok : 2 ≤ s.g_rows ∨ s.g_cols ≤ 2)
    (hlp : s.g_prev.length = (s.g_rows * s.g_cols).toNat)
    (hlc : s.g_cur.length = (s.g_rows * s.g_cols).toNat)
    (hv : ValidWorkers s.g_rows n) (hp : order.Perm (partitionRanges s.g_rows n)) :
    ∃ s', computePhase order s = some s' := by
  have hmem : ∀ c, c ∈ order.flatMap (passCells s.g_cols) ↔ InGrid s.g_rows s.g_cols c :=
    fun c => mem_order_cells (by omega) hv hp
  rw [computePhase_eq]
  apply runCells_ok
  · intro c hcm
    exact nodeValue_isSome hr hc hok hlp ((hmem c).mp hcm)
  · intro c hcm
    have hg := (hmem c).mp hcm
    have h0 := cellIdx_nonneg (show 0 ≤ s.g_cols by omega) hg.1 hg.2.2.1
    have h1 := cellIdx_lt hg
    exact ⟨h0, by omega⟩

theorem phase_one_row_no_grid :
    computePhase (partitionRanges 1 1) oneRowGlobals = none := by
  decide

theorem corner_after_phase {s s' : Globals} {n : Int} {order : List ThreadRecord}
    (hr : 1 ≤ s.g_rows) (hlc : s.g_cur.length = (s.g_rows * s.g_cols).toNat)
    (hv : ValidWorkers s.g_rows n) (hp : order.Perm (partitionRanges s.g_rows n))
    (hrun : computePhase order s = some s') {i j : Int}
    (hg : InGrid s.g_rows s.g_cols (i, j)) (hcor : isCorner s.g_rows s.g_cols i j) :
    cellAt s.g_cols s'.g_cur i j = s.g_U := by
  rw [computePhase_eq] at hrun
  have hres := runCells_result _ s s' hrun
  have hmem : ∀ c, c ∈ order.flatMap (passCells s.g_cols) ↔ InGrid s.g_rows s.g_cols c :=
    fun c => mem_order_cells (by omega) hv hp
  have h0 := cellIdx_nonneg (show 0 ≤ s.g_cols by unfold InGrid at hg; omega) hg.1 hg.2.2.1
  have h1 := cellIdx_lt hg
  have := getElem?_applyCells_of_mem s _ s.g_cur (i, j) ((hmem _).mpr hg)
    (fun d hd e => toNat_cellIdx_inj ((hmem d).mp hd) hg e) (by omega)
  rw [nodeValue_corner hcor] at this
  unfold cellIdx at this
  simp only [Option.getD_some] at this
  unfold cellAt
  rw [hres]
  simp only
  rw [this]
  rfl

/-- C4. For a mesh of at least `1 × 1` nodes with both buffers allocated, a valid
partition and any order of the workers: whenever the computation phase produces a
`current` grid, its four corner nodes `(0,0)`, `(0,cols-1)`, `(rows-1,0)`,
`(rows-1,cols-1)` hold exactly the value of `g_U` of that phase, whatever `previous`
held; and the phase does produce a grid as soon as the mesh has two rows or more, or two
columns or fewer (otherwise a load of the stencil falls outside `previous`). -/
theorem corner_invariant (s : Globals) (n : Int) (order : List ThreadRecord)
    (hr : 1 ≤ s.g_rows) (hc : 1 ≤ s.g_cols)
    (hlp : s.g_prev.length = (s.g_rows * s.g_cols).toNat)
    (hlc : s.g_cur.length = (s.g_rows * s.g_cols).toNat)
    (hv : ValidWorkers s.g_rows n) (hp : order.Perm (partitionRanges s.g_rows n)) :
    (∀ s', computePhase order s = some s' →
      cellAt s.g_cols s'.g_cur 0 0 = s.g_U ∧
      cellAt s.g_cols s'.g_cur 0 (s.g_cols - 1) = s.g_U ∧
      cellAt s.g_cols s'.g_cur (s.g_rows - 1) 0 = s.g_U ∧
      cellAt s.g_cols s'.g_cur (s.g_rows - 1) (s.g_cols - 1) = s.g_U) ∧
    (2 ≤ s.g_rows ∨ s.g_cols ≤ 2 → ∃ s', computePhase order s = some s') := by
  constructor
  · intro s' hrun
    refine ⟨?_, ?_, ?_, ?_⟩
    · exact corner_after_phase hr hlc hv hp hrun
        ⟨le_refl _, by simp only; omega, le_refl _, by simp only; omega⟩
        ⟨Or.inl rfl, Or.inl rfl⟩
    · exact corner_after_phase hr hlc hv hp hrun
        ⟨le_refl _, by simp only; omega, by simp only; omega, by simp only; omega⟩
        ⟨Or.inl rfl, Or.inr rfl⟩
    · exact corner_after_phase hr hlc hv hp hrun
        ⟨by simp only; omega, by simp only; omega, le_refl _, by simp only; omega⟩
        ⟨Or.inr rfl, Or.inl rfl⟩
    · exact corner_after_phase hr hlc hv hp hrun
        ⟨by simp only; omega, by simp only; omega, by simp only; omega, by simp only; omega⟩
        ⟨Or.inr rfl, Or.inr rfl⟩
  · intro hok
    exact computePhase_total hr hc hok hlp hlc hv hp

/-- Witness for C4: the sample mesh with its three rows given to three workers, taken in
reverse order. -/
theorem corner_invariant_witness :
    ValidWorkers 3 3 ∧ (partitionRanges 3 3).reverse.Perm (partitionRanges 3 3) ∧
    ∃ s', computePhase (partitionRanges 3 3).reverse sampleGlobals = some s' ∧
      cellAt 4 s'.g_cur 0 0 = 220 ∧ cellAt 4 s'.g_cur 0 3 = 220 ∧
      cellAt 4 s'.g_cur 2 0 = 220 ∧ cellAt 4 s'.g_cur 2 3 = 220 :=
  have h := corner_invariant sampleGlobals 3 (partitionRanges 3 3).reverse (by decide)
    (by decide) (by decide) (by decide) ⟨by decide, by decide⟩ (List.reverse_perm _)
  ⟨⟨by decide, by decide⟩, List.reverse_perm _,
    (h.2 (Or.inl (by decide))).imp (fun s' hs' => ⟨hs', h.1 s' hs'⟩)⟩

theorem nodup_passCells (cols : Int) (t : ThreadRecord) : (passCells cols t).Nodup := by
  unfold passCells
  rw [List.nodup_flatMap]
  refine ⟨fun i _ => ?_, ?_⟩
  · unfold rowCells
    refine (nodup_intRange 0 cols).map ?_
    intro a b h
    exact congrArg Prod.snd h
  · refine (nodup_intRange _ _).imp ?_
    intro a b hab c hc hd
    unfold rowCells at hc hd
    simp only [List.mem_map] at hc hd
    obtain ⟨x, -, rfl⟩ := hc
    obtain ⟨y, -, h⟩ := hd
    exact hab (congrArg Prod.fst h).symm

theorem nodup_partition_cells {rows cols n : Int} (hr : 0 < rows)
    (hv : ValidWorkers rows n) :
    ((partitionRanges rows n).flatMap (passCells cols)).Nodup := by
  have hq := tdiv_pos_of_divisible hr hv.1 hv.2
  rw [List.nodup_flatMap]
  refine ⟨fun t _ => nodup_passCells cols t, ?_⟩
  unfold partitionRanges
  rw [List.pairwise_map]
  refine (nodup_intRange _ _).imp ?_
  intro a b hab c hc hd
  have h1 := mem_passCells.mp hc
  have h2 := mem_passCells.mp hd
  simp only at h1 h2
  exact hab (range_unique hq (r := c.1) ⟨h1.1, h1.2.1⟩ ⟨h2.1, h2.2.1⟩)

theorem stores_of_phase {rows : Int} (cols : Int) {n : Int} (hr : 0 < rows) (hc : 0 < cols)
    (hv : ValidWorkers rows n) {order : List ThreadRecord}
    (hp : order.Perm (partitionRanges rows n)) :
    ((order.flatMap (passCells cols)).map (cellIdx cols)).Perm (intRange 0 (rows * cols)) := by
  have hmem : ∀ c, c ∈ order.flatMap (passCells cols) ↔ InGrid rows cols c :=
    fun c => mem_order_cells hr hv hp
  have hnd : (order.flatMap (passCells cols)).Nodup :=
    ((hp.flatMap_right (passCells cols)).nodup_iff).mpr (nodup_partition_cells hr hv)
  have hnd2 : ((order.flatMap (passCells cols)).map (cellIdx cols)).Nodup := by
    refine List.Nodup.map_on ?_ hnd
    intro x hx y hy e
    have hx1 := (hmem x).mp hx
    have hy1 := (hmem y).mp hy
    exact cellIdx_inj ⟨hx1.2.2.1, hx1.2.2.2⟩ ⟨hy1.2.2.1, hy1.2.2.2⟩ e
  rw [List.perm_ext_iff_of_nodup hnd2 (nodup_intRange _ _)]
  intro a
  rw [mem_intRange, List.mem_map]
  constructor
  · rintro ⟨c, hcm, rfl⟩
    have hg := (hmem c).mp hcm
    exact ⟨cellIdx_nonneg (le_of_lt hc) hg.1 hg.2.2.1, cellIdx_lt hg⟩
  · rintro ⟨h0, h1⟩
    obtain ⟨hg, he⟩ := cell_of_index rows hc (n := a.toNat) (by omega)
    exact ⟨_, (hmem _).mpr hg, by rw [he]; omega⟩

/-- C6. For a mesh of at least `2 × 2` nodes, a valid partition and any order of the
workers, the stores into `current` made during one phase are, up to their order, the
flat indices `0, 1, ..., rows*cols - 1`: every cell `(i, j)` of the grid is stored to
exactly once and nothing else is stored to. Hence the `current` grid after the phase is
the same whatever `current` held before it. -/
theorem phase_writes_once (s : Globals) (n : Int) (order : List ThreadRecord)
    (hs : GridShape s) (hv : ValidWorkers s.g_rows n)
    (hp : order.Perm (partitionRanges s.g_rows n)) :
    ∃ s' w, computePhase order s = some s' ∧ s'.stores = s.stores ++ w ∧
      w.Perm (intRange 0 (s.g_rows * s.g_cols)) ∧
      (∀ i j, InGrid s.g_rows s.g_cols (i, j) → w.count (i * s.g_cols + j) = 1) ∧
      (∀ cur2 : List ℚ, cur2.length = s.g_cur.length →
        ∃ s2', computePhase order { s with g_cur := cur2 } = some s2' ∧
          s2'.g_cur = s'.g_cur) := by
  have hr : 0 < s.g_rows := by unfold GridShape at hs; omega
  have hc : 0 < s.g_cols := by unfold GridShape at hs; omega
  obtain ⟨s', hrun, a1, -, -, -, -, -, a7⟩ := computePhase_spec hs hv hp
  have hperm := stores_of_phase s.g_cols hr hc hv hp
  refine ⟨s', _, hrun, a7, hperm, ?_, ?_⟩
  · intro i j hg
    rw [hperm.count_eq]
    apply List.count_eq_one_of_mem (nodup_intRange _ _)
    rw [mem_intRange]
    exact ⟨cellIdx_nonneg (le_of_lt hc) hg.1 hg.2.2.1, cellIdx_lt hg⟩
  · intro cur2 hlen
    have hs2 : GridShape { s with g_cur := cur2 } :=
      ⟨hs.1, hs.2.1, hs.2.2.1, by rw [← hs.2.2.2]; exact hlen⟩
    obtain ⟨s2', hrun2, b1, -⟩ := computePhase_spec hs2 hv hp
    exact ⟨s2', hrun2, by rw [b1, a1]⟩

/-- Witness for C6: the sample mesh, three workers. -/
theorem phase_writes_once_witness :
    GridShape sampleGlobals ∧ ValidWorkers 3 3 ∧
    ∃ s' w, computePhase (partitionRanges 3 3) sampleGlobals = some s' ∧
      s'.stores = sampleGlobals.stores ++ w ∧ w.Perm (intRange 0 (3 * 4)) :=
  ⟨gridShape_sample, ⟨by decide, by decide⟩,
    (phase_writes_once sampleGlobals 3 (partitionRanges 3 3) gridShape_sample
      ⟨by decide, by decide⟩ (List.Perm.refl _)).imp
      (fun _ h => h.imp (fun _ h2 => ⟨h2.1, h2.2.1, h2.2.2.1⟩))⟩

/-- C9. In the single-step scenario (`4 × 4` nodes, one worker owning rows `0..3`,
`h = 1`, `C = 1`, `R = 5`, source value `220`, `previous` equal to `220` at the corners
and `0` elsewhere) one computation pass yields, from any content of `current`, the grid
with `220` at the four corners, `44` at node `(0,1)` and at every other boundary node,
and `0` at the four interior nodes. -/
theorem single_step_scenario (cur : List ℚ) (hlen : cur.length = 16) :
    ∃ s', thread_func_pass ⟨0, 3⟩ (scenarioGlobals cur) = some s' ∧
      s'.g_cur = [220, 44, 44, 220,
                  44, 0, 0, 44,
                  44, 0, 0, 44,
                  220, 44, 44, 220] ∧
      cellAt 4 s'.g_cur 0 1 = 44 := by
  have hs : GridShape (scenarioGlobals cur) := by
    refine ⟨?_, ?_, ?_, ?_⟩
    · show (2 : Int) ≤ 4
      decide
    · show (2 : Int) ≤ 4
      decide
    · show scenarioPrev.length = ((4 : Int) * 4).toNat
      decide
    · show cur.length = ((4 : Int) * 4).toNat
      rw [hlen]
      decide
  have hv : ValidWorkers (scenarioGlobals cur).g_rows 1 := by
    show ValidWorkers 4 1
    exact ⟨by decide, by decide⟩
  have hpart : partitionRanges (scenarioGlobals cur).g_rows 1 = [⟨0, 3⟩] := by
    show partitionRanges 4 1 = [⟨0, 3⟩]
    decide
  have hp : List.Perm [(⟨0, 3⟩ : ThreadRecord)] (partitionRanges (scenarioGlobals cur).g_rows 1) := by
    rw [hpart]
  obtain ⟨s', hrun, a1, -⟩ := computePhase_spec hs hv hp
  have hrun2 : thread_func_pass ⟨0, 3⟩ (scenarioGlobals cur) = some s' := by
    simpa [computePhase] using hrun
  have hgrid : s'.g_cur = [220, 44, 44, 220, 44, 0, 0, 44, 44, 0, 0, 44, 220, 44, 44, 220] := by
    rw [a1]
    simp [stepGrid, List.range, List.range.loop, nodeSpec, isCorner, updateRule,
      neighbourSum, neighboursInside, neighbours, InGrid, cellAt, g_h, g_C, g_R,
      scenarioPrev, scenarioGlobals]
    norm_num
  refine ⟨s', hrun2, hgrid, ?_⟩
  rw [hgrid]
  simp [cellAt]

/-- Witness for C9: `current` full of zeros before the pass. -/
theorem single_step_scenario_witness :
    (List.replicate 16 (0 : ℚ)).length = 16 ∧
    ∃ s', thread_func_pass ⟨0, 3⟩ (scenarioGlobals (List.replicate 16 0)) = some s' ∧
      cellAt 4 s'.g_cur 0 1 = 44 :=
  ⟨by decide, (single_step_scenario (List.replicate 16 0) (by decide)).imp
    (fun _ h => ⟨h.1, h.2.2⟩)⟩

/-! ## The loop of `main` -/

theorem length_gridAfter {rows cols : Int} (src : Int → ℚ) {prev0 : List ℚ}
    (h : prev0.length = (rows * cols).toNat) (p : Nat) :
    (gridAfter rows cols src prev0 p).length = (rows * cols).toNat := by
  cases p with
  | zero => exact h
  | succ p => exact length_stepGrid _ _ _ _

theorem memcpyCells_full (dst src : List ℚ) (n : Nat) (hs : src.length = n)
    (hd : dst.length = n) : memcpyCells dst src n = src := by
  unfold memcpyCells
  rw [← hs, List.take_length, List.drop_of_length_le (by omega), List.append_nil]

theorem length_memsetZero (lib : LibFns) (buf : List ℚ) (n : Nat) :
    (memsetZero lib buf n).length = buf.length := by
  unfold memsetZero
  exact List.length_mapIdx

theorem loopBody_spec (lib : LibFns) (sch : Schedule) {n : Int} (st : MainState) (k : Int)
    (hs : GridShape st.mem) (hv : ValidWorkers st.mem.g_rows n)
    (hp : (sch.order k).Perm (partitionRanges st.mem.g_rows n)) :
    ∃ m1, loopBody lib sch st k =
        some { mem := swapPhase lib m1, out := st.out ++ [(k, st.mem.g_prev)],
               seen := st.seen ++ [m1] } ∧
      m1.g_prev = st.mem.g_prev ∧
      m1.g_cur = stepGrid st.mem.g_rows st.mem.g_cols
        (if sch.sourceFirst k then lib.sinOf st.mem.g_time else st.mem.g_U) st.mem.g_prev ∧
      m1.g_rows = st.mem.g_rows ∧ m1.g_cols = st.mem.g_cols ∧ m1.g_time = st.mem.g_time ∧
      m1.g_U = lib.sinOf st.mem.g_time := by
  have hsnap : ∀ m : Globals, m.g_prev = st.mem.g_prev → m.g_rows = st.mem.g_rows →
      m.g_cols = st.mem.g_cols → snapshot m = st.mem.g_prev := by
    intro m e1 e2 e3
    unfold snapshot
    rw [e1, e2, e3, ← hs.2.2.1, List.take_length]
  unfold loopBody
  cases hsf : sch.sourceFirst k with
  | true =>
    have hs2 : GridShape { st.mem with g_U := lib.sinOf st.mem.g_time } := hs
    obtain ⟨s', hrun, a1, a2, a3, a4, a5, a6, -⟩ := computePhase_spec hs2 hv hp
    refine ⟨s', ?_, a2, a1, a3, a4, a5, a6⟩
    simp only [if_true]
    rw [hrun]
    simp only [Option.bind_eq_bind, Option.some_bind, Option.pure_def]
    rw [hsnap s' a2 a3 a4]
  | false =>
    obtain ⟨s', hrun, a1, a2, a3, a4, a5, a6, -⟩ := computePhase_spec hs hv hp
    refine ⟨{ s' with g_U := lib.sinOf s'.g_time }, ?_, a2, ?_, a3, a4, a5, ?_⟩
    · simp only [Bool.false_eq_true, if_false]
      rw [hrun]
      simp only [Option.map_some', Option.bind_eq_bind, Option.some_bind, Option.pure_def]
      rw [hsnap { s' with g_U := lib.sinOf s'.g_time } a2 a3 a4]
    · simp only [Bool.false_eq_true, if_false]
      exact a1
    · simp only
      rw [a5]

theorem runInv_step (lib : LibFns) (sch : Schedule) {rows cols time n : Int}
    {prev0 : List ℚ} (hr : 2 ≤ rows) (hc : 2 ≤ cols)
    (hlp : prev0.length = (rows * cols).toNat) (hv : ValidWorkers rows n)
    (ho : ∀ k, (sch.order k).Perm (partitionRanges rows n)) {p : Nat} {st : MainState}
    (hinv : RunInv lib sch rows cols time prev0 p st) :
    ∃ st', loopBody lib sch st ((p : Int) + 1) = some st' ∧
      RunInv lib sch rows cols time prev0 (p + 1) st' := by
  obtain ⟨i1, i2, i3, i4, i5, i6, i7, i8, i9⟩ := hinv
  have hG := length_gridAfter (sourceAt lib sch time) hlp
  have hs : GridShape st.mem := by
    refine ⟨by rw [i1]; exact hr, by rw [i2]; exact hc, ?_, ?_⟩
    · rw [i4, i1, i2, hG]
    · rw [i5, i1, i2]
  obtain ⟨m1, hrun, a1, a2, a3, a4, a5, a6⟩ :=
    loopBody_spec lib sch st ((p : Int) + 1) hs (by rw [i1]; exact hv) (by rw [i1]; exact ho _)
  have hU : (if sch.sourceFirst ((p : Int) + 1) then lib.sinOf st.mem.g_time else st.mem.g_U)
      = sourceAt lib sch time ((p : Int) + 1) := by
    unfold sourceAt
    rw [i3, i6]
    cases hsf : sch.sourceFirst ((p : Int) + 1)
    · by_cases hp0 : p = 0
      · subst hp0
        simp
      · have : ¬ ((p : Int) + 1 = 1) := by omega
        simp [hp0, this]
    · simp
  have hcur : m1.g_cur = gridAfter rows cols (sourceAt lib sch time) prev0 (p + 1) := by
    rw [a2, hU, i1, i2, i4]
    rfl
  refine ⟨_, hrun, ?_⟩
  refine ⟨?_, ?_, ?_, ?_, ?_, ?_, ?_, ?_, ?_⟩
  · exact a3.trans i1
  · exact a4.trans i2
  · exact a5.trans i3
  · show memcpyCells m1.g_prev m1.g_cur (m1.g_rows * m1.g_cols).toNat = _
    rw [a3, a4, i1, i2, memcpyCells_full _ _ _ (by rw [hcur, hG]) (by rw [a1, i4, hG]), hcur]
  · show (memsetZero lib m1.g_cur (m1.g_rows * m1.g_cols).toNat).length = _
    rw [length_memsetZero, hcur, hG]
  · show m1.g_U = _
    rw [a6, i3, if_neg (Nat.succ_ne_zero p)]
  · show st.out ++ [((p : Int) + 1, st.mem.g_prev)] = _
    rw [i7, i4, List.range_succ, List.map_append]
    rfl
  · show (st.seen ++ [m1]).length = p + 1
    rw [List.length_append, i8]
    rfl
  · intro q m hq
    change (st.seen ++ [m1])[q]? = some m at hq
    by_cases hlt : q < st.seen.length
    · rw [List.getElem?_append_left hlt] at hq
      exact i9 q m hq
    · rw [List.getElem?_append_right (by omega)] at hq
      have hq0 : q - st.seen.length = 0 := by
        by_contra hne
        rw [List.getElem?_eq_none (by simp; omega)] at hq
        cases hq
      rw [hq0] at hq
      simp only [List.getElem?_cons_zero, Option.some.injEq] at hq
      have hqp : q = p := by omega
      subst hq
      subst hqp
      exact ⟨a1.trans i4, hcur, a3.trans i1, a4.trans i2⟩

theorem runInv_init (lib : LibFns) (sch : Schedule) (rows cols time : Int)
    (prev0 cur0 : List ℚ) (hlc : cur0.length = (rows * cols).toNat) :
    RunInv lib sch rows cols time prev0 0
      { mem := initGlobals rows cols time prev0 cur0, out := [], seen := [] } := by
  refine ⟨rfl, rfl, rfl, rfl, hlc, rfl, rfl, rfl, ?_⟩
  intro q m hq
  simp at hq

theorem main_loop_iterate (lib : LibFns) (sch : Schedule) {rows cols : Int} (time : Int) {n : Int}
    {prev0 cur0 : List ℚ} (hr : 2 ≤ rows) (hc : 2 ≤ cols)
    (hlp : prev0.length = (rows * cols).toNat) (hlc : cur0.length = (rows * cols).toNat)
    (hv : ValidWorkers rows n) (ho : ∀ k, (sch.order k).Perm (partitionRanges rows n))
    (p : Nat) :
    ∃ st, (intRange 1 ((p : Int) + 1)).foldlM (loopBody lib sch)
        { mem := initGlobals rows cols time prev0 cur0, out := [], seen := [] } = some st ∧
      RunInv lib sch rows cols time prev0 p st := by
  induction p with
  | zero =>
    refine ⟨_, ?_, runInv_init lib sch rows cols time prev0 cur0 hlc⟩
    simp [intRange]
  | succ p ih =>
    obtain ⟨st, hst, hinv⟩ := ih
    obtain ⟨st', hstep, hinv'⟩ := runInv_step lib sch hr hc hlp hv ho hinv
    refine ⟨st', ?_, hinv'⟩
    have e : (((p + 1 : Nat) : Int) + 1) = ((p : Int) + 1) + 1 := by push_cast; ring
    rw [e, intRange_succ (by omega), List.foldlM_append, hst]
    simp only [Option.bind_eq_bind, Option.some_bind, List.foldlM_cons, List.foldlM_nil]
    rw [hstep]
    rfl

theorem main_loop_spec (lib : LibFns) (sch : Schedule) {rows cols : Int} (time : Int) {n : Int}
    {prev0 cur0 : List ℚ} (hr : 2 ≤ rows) (hc : 2 ≤ cols)
    (hlp : prev0.length = (rows * cols).toNat) (hlc : cur0.length = (rows * cols).toNat)
    (hv : ValidWorkers rows n) (ho : ∀ k, (sch.order k).Perm (partitionRanges rows n)) :
    ∃ st, main_loop lib sch rows cols time prev0 cur0 = some st ∧
      RunInv lib sch rows cols time prev0 (time + 1).toNat st := by
  obtain ⟨st, hst, hinv⟩ := main_loop_iterate lib sch time hr hc hlp hlc hv ho
    (time + 1).toNat
  refine ⟨st, ?_, hinv⟩
  unfold main_loop
  have e : intRange 1 (time + 2) = intRange 1 ((((time + 1).toNat : Nat) : Int) + 1) := by
    unfold intRange
    congr 2
    omega
  rw [e]
  exact hst

theorem validWorkers_one {rows : Int} (hr : 0 ≤ rows) : ValidWorkers rows 1 := by
  refine ⟨by decide, ?_⟩
  unfold divisible
  rw [Int.tmod_eq_emod hr (by decide)]
  exact Int.emod_one rows

/-- C1. For a mesh of at least `2 × 2` nodes, any `previous` grid and source value, and
any worker count `n > 0` dividing `rows`: running the passes of the workers of that
partition, in any order, leaves the same `current` grid as the pass of the single worker
of the partition with `n = 1`. Consequently two runs of the loop of `main` from the same
initial `previous` grid and with the same source values write the same sequence of
blocks, whatever their (valid) worker counts, worker orders and initial `current`. -/
theorem repartition_determinism (lib : LibFns) (sch sch' : Schedule)
    (rows cols time n n' : Int) (U : ℚ) (prev0 cur0 cur0' : List ℚ) (log : List Int)
    (order : List ThreadRecord) (hr : 2 ≤ rows) (hc : 2 ≤ cols)
    (hlp : prev0.length = (rows * cols).toNat) (hlc : cur0.length = (rows * cols).toNat)
    (hlc' : cur0'.length = (rows * cols).toNat)
    (hv : ValidWorkers rows n) (hv' : ValidWorkers rows n')
    (hp : order.Perm (partitionRanges rows n))
    (ho : ∀ k, (sch.order k).Perm (partitionRanges rows n))
    (ho' : ∀ k, (sch'.order k).Perm (partitionRanges rows n'))
    (hsf : ∀ k, sch.sourceFirst k = sch'.sourceFirst k) :
    (∃ s1 s2,
      computePhase order
        { g_cur := cur0, g_prev := prev0, g_rows := rows, g_cols := cols, g_time := time,
          g_U := U, stores := log } = some s1 ∧
      computePhase (partitionRanges rows 1)
        { g_cur := cur0, g_prev := prev0, g_rows := rows, g_cols := cols, g_time := time,
          g_U := U, stores := log } = some s2 ∧
      s1.g_cur = s2.g_cur) ∧
    (∃ st st', main_loop lib sch rows cols time prev0 cur0 = some st ∧
      main_loop lib sch' rows cols time prev0 cur0' = some st' ∧ st.out = st'.out) := by
  constructor
  · have hs : GridShape (Globals.mk cur0 prev0 rows cols time U log) := ⟨hr, hc, hlp, hlc⟩
    obtain ⟨s1, h1, a1, -⟩ := computePhase_spec hs hv hp
    obtain ⟨s2, h2, b1, -⟩ := computePhase_spec hs
      (validWorkers_one (show (0 : Int) ≤ rows by omega)) (List.Perm.refl _)
    exact ⟨s1, s2, h1, h2, by rw [a1, b1]⟩
  · obtain ⟨st, h1, i⟩ := main_loop_spec lib sch time hr hc hlp hlc hv ho
    obtain ⟨st', h2, i'⟩ := main_loop_spec lib sch' time hr hc hlp hlc' hv' ho'
    refine ⟨st, st', h1, h2, ?_⟩
    have hsrc : sourceAt lib sch' time = sourceAt lib sch time := by
      funext k
      unfold sourceAt
      rw [hsf k]
    rw [i.2.2.2.2.2.2.1, i'.2.2.2.2.2.2.1, hsrc]

/-- Witness for C1: the sample mesh, three workers in reverse order against one worker,
and two runs of a `2 × 2` mesh. -/
theorem repartition_determinism_witness :
    ValidWorkers 3 3 ∧ (partitionRanges 3 3).reverse.Perm (partitionRanges 3 3) ∧
    ∃ s1 s2, computePhase (partitionRanges 3 3).reverse sampleGlobals = some s1 ∧
      computePhase (partitionRanges 3 1) sampleGlobals = some s2 ∧ s1.g_cur = s2.g_cur :=
  ⟨⟨by decide, by decide⟩, List.reverse_perm _,
    (repartition_determinism sampleLib
      { order := fun _ => partitionRanges 3 3, sourceFirst := fun _ => true }
      { order := fun _ => partitionRanges 3 1, sourceFirst := fun _ => true }
      3 4 1 3 1 220 sampleGlobals.g_prev sampleGlobals.g_cur sampleGlobals.g_cur []
      (partitionRanges 3 3).reverse (by decide) (by decide) (by decide) (by decide)
      (by decide) ⟨by decide, by decide⟩ ⟨by decide, by decide⟩ (List.reverse_perm _)
      (fun _ => List.Perm.refl _) (fun _ => List.Perm.refl _) (fun _ => rfl)).1⟩

theorem runInv_out_getElem? {lib : LibFns} {sch : Schedule} {rows cols time : Int}
    {prev0 : List ℚ} {p : Nat} {st : MainState}
    (hinv : RunInv lib sch rows cols time prev0 p st) {q : Nat} (hq : q < p) :
    st.out[q]? = some ((q : Int) + 1, gridAfter rows cols (sourceAt lib sch time) prev0 q) := by
  rw [hinv.2.2.2.2.2.2.1, List.getElem?_map, List.getElem?_range hq]
  rfl

theorem runInv_out_length {lib : LibFns} {sch : Schedule} {rows cols time : Int}
    {prev0 : List ℚ} {p : Nat} {st : MainState}
    (hinv : RunInv lib sch rows cols time prev0 p st) : st.out.length = p := by
  rw [hinv.2.2.2.2.2.2.1, List.length_map, List.length_range]

/-- C7. In the sequential model of a run on a mesh of at least `2 × 2` nodes with a
valid partition, iteration `k = p + 1` of the loop of `main` writes as its block the
content of `g_prev`, which is the initial `previous` buffer for `k = 1` and otherwise the
grid that the preceding phase left in `g_cur`; the grid produced by the phase of
iteration `k` itself is at that moment held in `g_cur` and is one stencil step ahead of
the block written. -/
theorem snapshot_lag (lib : LibFns) (sch : Schedule) (rows cols time n : Int)
    (prev0 cur0 : List ℚ) (hr : 2 ≤ rows) (hc : 2 ≤ cols)
    (hlp : prev0.length = (rows * cols).toNat) (hlc : cur0.length = (rows * cols).toNat)
    (hv : ValidWorkers rows n) (ho : ∀ k, (sch.order k).Perm (partitionRanges rows n)) :
    ∃ st, main_loop lib sch rows cols time prev0 cur0 = some st ∧
      st.out.length = (time + 1).toNat ∧ st.seen.length = (time + 1).toNat ∧
      ∀ p : Nat, p < (time + 1).toNat →
        ∃ blk m, st.out[p]? = some ((p : Int) + 1, blk) ∧ st.seen[p]? = some m ∧
          blk = m.g_prev ∧
          m.g_cur = stepGrid rows cols (sourceAt lib sch time ((p : Int) + 1)) blk ∧
          (p = 0 → blk = prev0) ∧
          (∀ (q : Nat) (m' : Globals), p = q + 1 → st.seen[q]? = some m' →
            blk = m'.g_cur) := by
  obtain ⟨st, hrun, hinv⟩ := main_loop_spec lib sch time hr hc hlp hlc hv ho
  have hseen := hinv.2.2.2.2.2.2.2.1
  have hall := hinv.2.2.2.2.2.2.2.2
  refine ⟨st, hrun, runInv_out_length hinv, hseen, ?_⟩
  intro p hp
  have hm : st.seen[p]? = some (st.seen.get ⟨p, by rw [hseen]; exact hp⟩) :=
    List.getElem?_eq_getElem (by rw [hseen]; exact hp)
  obtain ⟨b1, b2, -, -⟩ := hall p _ hm
  refine ⟨_, _, runInv_out_getElem? hinv hp, hm, b1.symm, ?_, ?_, ?_⟩
  · rw [b2]
    rfl
  · intro h0
    subst h0
    rfl
  · intro q m' hq hm'
    subst hq
    exact (hall q m' hm').2.1.symm

/-- Witness for C7: a `2 × 2` mesh that starts at `0`; the block written in the first
iteration is the initial grid while `g_cur` already holds `220` at every node. -/
theorem snapshot_lag_witness :
    ValidWorkers 2 1 ∧
    ∃ st, main_loop sampleLib sampleSchedule 2 2 0 [0, 0, 0, 0] [7, 7, 7, 7] = some st ∧
      ∃ blk m, st.out[0]? = some (1, blk) ∧ st.seen[0]? = some m ∧
        blk = [0, 0, 0, 0] ∧ m.g_cur = [220, 220, 220, 220] := by
  refine ⟨⟨by decide, by decide⟩, ?_⟩
  obtain ⟨st, hrun, -, -, h⟩ := snapshot_lag sampleLib sampleSchedule 2 2 0 1
    [0, 0, 0, 0] [7, 7, 7, 7] (by decide) (by decide) (by decide) (by decide)
    ⟨by decide, by decide⟩ (fun _ => List.Perm.refl _)
  obtain ⟨blk, m, h1, h2, -, h4, h5, -⟩ := h 0 (by decide)
  have hb := h5 rfl
  refine ⟨st, hrun, blk, m, h1, h2, hb, ?_⟩
  rw [h4, hb]
  simp [stepGrid, List.range, List.range.loop, nodeSpec, isCorner, sourceAt, sampleSchedule,
    g_U_init]

/-- Counterexample to C8 as stated: with `totalSteps = 0` the loop of `main` has one
iteration and writes one block, not `totalSteps + 2 = 2`. -/
theorem loop_count_counterexample :
    (intRange 1 ((0 : Int) + 2)).length = 1 ∧
    ∃ st, main_loop sampleLib sampleSchedule 2 2 0 [0, 0, 0, 0] [0, 0, 0, 0] = some st ∧
      st.out.length = 1 ∧ ¬ ((st.out.length : Int) = 0 + 2) := by
  refine ⟨by decide, ?_⟩
  obtain ⟨st, hrun, hinv⟩ := main_loop_spec sampleLib sampleSchedule 0
    (show (2 : Int) ≤ 2 by decide) (show (2 : Int) ≤ 2 by decide)
    (show ([0, 0, 0, 0] : List ℚ).length = ((2 : Int) * 2).toNat by decide)
    (show ([0, 0, 0, 0] : List ℚ).length = ((2 : Int) * 2).toNat by decide)
    (show ValidWorkers 2 1 from ⟨by decide, by decide⟩) (fun _ => List.Perm.refl _)
  have hlen : st.out.length = 1 := runInv_out_length hinv
  refine ⟨st, hrun, hlen, ?_⟩
  rw [hlen]
  decide

/-- C8, amended. For `totalSteps >= 0` the loop `for (k = 1; k < g_time + 2; k++)` of
`main` performs exactly `totalSteps + 1` iterations, and a run on a mesh of at least
`2 × 2` nodes with a valid partition writes exactly `totalSteps + 1` blocks, one per
iteration, tagged `1, 2, ..., totalSteps + 1` in this order. -/
theorem loop_count (lib : LibFns) (sch : Schedule) (rows cols time n : Int)
    (prev0 cur0 : List ℚ) (ht : 0 ≤ time) (hr : 2 ≤ rows) (hc : 2 ≤ cols)
    (hlp : prev0.length = (rows * cols).toNat) (hlc : cur0.length = (rows * cols).toNat)
    (hv : ValidWorkers rows n) (ho : ∀ k, (sch.order k).Perm (partitionRanges rows n)) :
    ((intRange 1 (time + 2)).length : Int) = time + 1 ∧
    ∃ st, main_loop lib sch rows cols time prev0 cur0 = some st ∧
      (st.out.length : Int) = time + 1 ∧
      st.out.map Prod.fst = intRange 1 (time + 2) := by
  constructor
  · rw [length_intRange]
    omega
  · obtain ⟨st, hrun, hinv⟩ := main_loop_spec lib sch time hr hc hlp hlc hv ho
    refine ⟨st, hrun, ?_, ?_⟩
    · rw [runInv_out_length hinv]
      omega
    · rw [hinv.2.2.2.2.2.2.1, List.map_map]
      unfold intRange
      have e : (time + 2 - 1).toNat = (time + 1).toNat := by omega
      rw [e]
      apply List.map_congr_left
      intro q _
      simp only [Function.comp]
      omega

/-- Witness for C8, amended: a `2 × 2` mesh and `totalSteps = 3`. -/
theorem loop_count_witness :
    (0 : Int) ≤ 3 ∧ ValidWorkers 2 1 ∧
    ∃ st, main_loop sampleLib sampleSchedule 2 2 3 [0, 0, 0, 0] [0, 0, 0, 0] = some st ∧
      (st.out.length : Int) = 3 + 1 ∧ st.out.map Prod.fst = intRange 1 (3 + 2) :=
  ⟨by decide, ⟨by decide, by decide⟩,
    (loop_count sampleLib sampleSchedule 2 2 3 1 [0, 0, 0, 0] [0, 0, 0, 0] (by decide)
      (by decide) (by decide) (by decide) (by decide) ⟨by decide, by decide⟩
      (fun _ => List.Perm.refl _)).2⟩

/-! ## Boundedness -/

theorem abs_cellAt_le {cols : Int} {g : List ℚ} {M : ℚ} (hM : 0 ≤ M)
    (hg : ∀ x ∈ g, |x| ≤ M) (i j : Int) : |cellAt cols g i j| ≤ M := by
  unfold cellAt
  cases h : g[(i * cols + j).toNat]? with
  | none => simpa using hM
  | some v => exact hg v (List.getElem?_mem h)

theorem abs_updateRule_le {rows cols : Int} {g : List ℚ} {M : ℚ} (hM : 0 ≤ M)
    (hg : ∀ x ∈ g, |x| ≤ M) (i j : Int) : |updateRule rows cols g i j| ≤ M := by
  have key : ∀ (P : Prop) [Decidable P] (a b : Int),
      |(if P then cellAt cols g a b else 0)| ≤ M := by
    intro P _ a b
    by_cases hP : P
    · rw [if_pos hP]
      exact abs_cellAt_le hM hg a b
    · rw [if_neg hP]
      simpa using hM
  have h1 := abs_le.mp (key (InGrid rows cols (i - 1, j)) (i - 1) j)
  have h2 := abs_le.mp (key (InGrid rows cols (i + 1, j)) (i + 1) j)
  have h3 := abs_le.mp (key (InGrid rows cols (i, j - 1)) i (j - 1))
  have h4 := abs_le.mp (key (InGrid rows cols (i, j + 1)) i (j + 1))
  have h5 := abs_le.mp ((abs_cellAt_le hM hg i j : |cellAt cols g i j| ≤ M))
  unfold updateRule
  rw [neighbourSum_eq]
  unfold g_h g_C g_R
  rw [abs_le]
  constructor <;> linarith [h1.1, h1.2, h2.1, h2.2, h3.1, h3.2, h4.1, h4.2, h5.1, h5.2]

theorem abs_stepGrid_le {rows cols : Int} {g : List ℚ} {U M : ℚ} (hM : 0 ≤ M)
    (hg : ∀ x ∈ g, |x| ≤ M) (hU : |U| ≤ M) : ∀ x ∈ stepGrid rows cols U g, |x| ≤ M := by
  intro x hx
  unfold stepGrid at hx
  obtain ⟨k, -, rfl⟩ := List.mem_map.mp hx
  unfold nodeSpec
  split_ifs
  · exact hU
  · exact abs_updateRule_le hM hg _ _

theorem abs_gridAfter_le (rows cols : Int) {src : Int → ℚ} {prev0 : List ℚ} {M : ℚ}
    (hM : 0 ≤ M) (hg : ∀ x ∈ prev0, |x| ≤ M) (hsrc : ∀ k, |src k| ≤ M) (p : Nat) :
    ∀ x ∈ gridAfter rows cols src prev0 p, |x| ≤ M := by
  induction p with
  | zero => exact hg
  | succ p ih => exact abs_stepGrid_le hM ih (hsrc _)

/-- C10. With the constants of the program (`h = 1`, `C = 1`, `R = 5`) and exact
arithmetic, on a mesh of at least `2 × 2` nodes with a valid partition, for every bound
`M >= 0`: if all values of `previous` and the source value are at most `M` in absolute
value, so are all values of `current` after one computation phase; and in a run whose
initial `previous` grid and source values are bounded by `M`, every block written, every
`previous` and `current` grid met at `barr2`, and the final `previous` grid are bounded
by `M`. -/
theorem stability_bound (lib : LibFns) (sch : Schedule) (rows cols time n : Int)
    (prev0 cur0 : List ℚ) (M : ℚ) (hr : 2 ≤ rows) (hc : 2 ≤ cols)
    (hlp : prev0.length = (rows * cols).toNat) (hlc : cur0.length = (rows * cols).toNat)
    (hv : ValidWorkers rows n) (ho : ∀ k, (sch.order k).Perm (partitionRanges rows n))
    (hM : 0 ≤ M) (hprev : ∀ x ∈ prev0, |x| ≤ M)
    (hsrc : ∀ k, |sourceAt lib sch time k| ≤ M) :
    (∀ (U : ℚ) (order : List ThreadRecord), |U| ≤ M →
      order.Perm (partitionRanges rows n) →
      ∃ s', computePhase order
          { g_cur := cur0, g_prev := prev0, g_rows := rows, g_cols := cols, g_time := time,
            g_U := U, stores := [] } = some s' ∧
        ∀ x ∈ s'.g_cur, |x| ≤ M) ∧
    (∃ st, main_loop lib sch rows cols time prev0 cur0 = some st ∧
      (∀ b ∈ st.out, ∀ x ∈ b.2, |x| ≤ M) ∧
      (∀ m ∈ st.seen, (∀ x ∈ m.g_prev, |x| ≤ M) ∧ (∀ x ∈ m.g_cur, |x| ≤ M)) ∧
      (∀ x ∈ st.mem.g_prev, |x| ≤ M)) := by
  constructor
  · intro U order hU hp
    have hs : GridShape (Globals.mk cur0 prev0 rows cols time U []) := ⟨hr, hc, hlp, hlc⟩
    obtain ⟨s', hrun, a1, -⟩ := computePhase_spec hs hv hp
    refine ⟨s', hrun, ?_⟩
    rw [a1]
    exact abs_stepGrid_le hM hprev hU
  · obtain ⟨st, hrun, hinv⟩ := main_loop_spec lib sch time hr hc hlp hlc hv ho
    have hG := abs_gridAfter_le rows cols hM hprev hsrc
    refine ⟨st, hrun, ?_, ?_, ?_⟩
    · intro b hb
      rw [hinv.2.2.2.2.2.2.1] at hb
      obtain ⟨q, -, rfl⟩ := List.mem_map.mp hb
      exact hG q
    · intro m hm
      obtain ⟨q, hq⟩ := List.mem_iff_getElem?.mp hm
      obtain ⟨b1, b2, -, -⟩ := hinv.2.2.2.2.2.2.2.2 q m hq
      rw [b1, b2]
      exact ⟨hG q, hG (q + 1)⟩
    · rw [hinv.2.2.2.1]
      exact hG _

/-- Witness for C10: a `2 × 2` mesh that starts at `0`, source values `220` and `1/2`,
bound `220`. -/
theorem stability_bound_witness :
    (0 : ℚ) ≤ 220 ∧ (∀ k, |sourceAt sampleLib sampleSchedule 0 k| ≤ 220) ∧
    ∃ st, main_loop sampleLib sampleSchedule 2 2 0 [0, 0, 0, 0] [0, 0, 0, 0] = some st ∧
      (∀ b ∈ st.out, ∀ x ∈ b.2, |x| ≤ 220) ∧
      (∀ m ∈ st.seen, (∀ x ∈ m.g_prev, |x| ≤ 220) ∧ (∀ x ∈ m.g_cur, |x| ≤ 220)) ∧
      (∀ x ∈ st.mem.g_prev, |x| ≤ 220) := by
  have hsrc : ∀ k, |sourceAt sampleLib sampleSchedule 0 k| ≤ 220 := by
    intro k
    unfold sourceAt sampleLib g_U_init
    split_ifs <;> norm_num [abs_le]
  exact ⟨by norm_num, hsrc,
    (stability_bound sampleLib sampleSchedule 2 2 0 1 [0, 0, 0, 0] [0, 0, 0, 0] 220
      (by decide) (by decide) (by decide) (by decide) ⟨by decide, by decide⟩
      (fun _ => List.Perm.refl _) (by norm_num) (by simp) hsrc).2⟩

/-! ## Setup: validation of the launch parameters -/

theorem createLoop_launched (createFails : Int → Bool) (j : Int) :
    ∀ (l : List Int) (created ws : List ThreadRecord),
      createLoop createFails j l created = SetupOutcome.launched ws →
      ws = created ++ l.map (fun i => { fromRow := j * i, toRow := j * (i + 1) - 1 }) := by
  intro l
  induction l with
  | nil =>
    intro created ws h
    simp only [createLoop, SetupOutcome.launched.injEq] at h
    simp [h]
  | cons i rest ih =>
    intro created ws h
    unfold createLoop at h
    split_ifs at h
    have := ih _ _ h
    simpa using this

theorem mainSetup_launched {createFails : Int → Bool} {argc a1 a2 a3 a4 : Int}
    {ws : List ThreadRecord}
    (h : mainSetup createFails argc a1 a2 a3 a4 = SetupOutcome.launched ws) :
    argc = 5 ∧ 0 ≤ a3 ∧ ValidWorkers a1 a4 ∧ ws = partitionRanges a1 a4 := by
  unfold mainSetup at h
  split_ifs at h with h1 h2 h3 h4 h5
  have hw := createLoop_launched createFails _ _ _ _ h
  refine ⟨by omega, by omega, ⟨by omega, ?_⟩, ?_⟩
  · unfold divisible
    exact not_not.mp h5
  · rw [hw]
    rfl

theorem createLoop_no_failure (j : Int) :
    ∀ (l : List Int) (created : List ThreadRecord),
      createLoop (fun _ => false) j l created =
        SetupOutcome.launched
          (created ++ l.map (fun i => { fromRow := j * i, toRow := j * (i + 1) - 1 })) := by
  intro l
  induction l with
  | nil =>
    intro created
    simp [createLoop]
  | cons i rest ih =>
    intro created
    unfold createLoop
    rw [if_neg (by simp), ih]
    simp

theorem mainSetup_launches (a1 a2 a3 a4 : Int) (h3 : 0 ≤ a3) (h4 : 0 < a4)
    (hd : divisible a1 a4) :
    mainSetup (fun _ => false) 5 a1 a2 a3 a4 =
      SetupOutcome.launched (partitionRanges a1 a4) := by
  unfold mainSetup
  unfold divisible at hd
  rw [if_neg (by decide), if_neg (by omega), if_neg (by omega), if_neg (by omega),
    if_neg (by rw [hd]; simp), createLoop_no_failure]
  rfl

theorem mainSetup_zero_workers (createFails : Int → Bool) (a1 a2 a3 : Int) (h3 : 0 ≤ a3) :
    mainSetup createFails 5 a1 a2 a3 0 = SetupOutcome.divisionByZero := by
  unfold mainSetup
  rw [if_neg (by decide), if_neg (by omega), if_neg (by decide), if_pos rfl]

/-- C11. With exactly four arguments, `totalSteps >= 0` and a worker count `> 0` that
does not divide `rows`, the setup in `main` returns the error code
`IMPOSSIBILITY_OF_PARALLEL_COMPUTING`, which is `4`, and has created no worker (no range
has been assigned) when it returns. -/
theorem setup_rejects_nondivisible (createFails : Int → Bool) (a1 a2 a3 a4 : Int)
    (h3 : 0 ≤ a3) (h4 : 0 < a4) (hd : ¬ divisible a1 a4) :
    mainSetup createFails 5 a1 a2 a3 a4 =
      SetupOutcome.returned IMPOSSIBILITY_OF_PARALLEL_COMPUTING [] ∧
    IMPOSSIBILITY_OF_PARALLEL_COMPUTING = 4 := by
  refine ⟨?_, rfl⟩
  unfold mainSetup
  unfold divisible at hd
  rw [if_neg (by decide), if_neg (by omega), if_neg (by omega), if_neg (by omega), if_pos hd]

/-- Witness for C11: five rows and two workers. -/
theorem setup_rejects_nondivisible_witness :
    (0 : Int) ≤ 0 ∧ (0 : Int) < 2 ∧ ¬ divisible 5 2 ∧
    mainSetup (fun _ => false) 5 5 4 0 2 = SetupOutcome.returned 4 [] :=
  ⟨by decide, by decide, by decide,
    (setup_rejects_nondivisible (fun _ => false) 5 4 0 2 (by decide) (by decide)
      (by decide)).1⟩

/-- Counterexample to C12 as stated: with `rows = 0` (one worker), and with `cols = 0`,
the setup in `main` returns no error code; it creates the workers and goes on. -/
theorem setup_accepts_empty_grid :
    mainSetup (fun _ => false) 5 0 4 0 1 = SetupOutcome.launched [⟨0, -1⟩] ∧
    mainSetup (fun _ => false) 5 4 0 0 2 = SetupOutcome.launched [⟨0, 1⟩, ⟨2, 3⟩] := by
  constructor <;> decide

/-- C12, amended. For every launch parameter set in which `totalSteps < 0` or
`workerCount < 0`, whatever the argument count, the setup in `main` returns a non-zero
error code and has created no worker when it returns. -/
theorem setup_rejects_negative (createFails : Int → Bool) (argc a1 a2 a3 a4 : Int)
    (h : a3 < 0 ∨ a4 < 0) :
    ∃ code, code ≠ 0 ∧
      mainSetup createFails argc a1 a2 a3 a4 = SetupOutcome.returned code [] := by
  unfold mainSetup
  by_cases h1 : argc < 5 ∨ argc > 5
  · exact ⟨WRONG_ARGUMENTS_AMOUNT, by decide, by rw [if_pos h1]⟩
  by_cases h2 : a3 < 0
  · exact ⟨WRONG_SIMULATION_TIME_VALUE, by decide, by rw [if_neg h1, if_pos h2]⟩
  have h3 : a4 < 0 := by omega
  exact ⟨WRONG_THREADS_AMOUNT, by decide, by rw [if_neg h1, if_neg h2, if_pos h3]⟩

/-- Witness for C12, amended: a negative number of threads. -/
theorem setup_rejects_negative_witness :
    ((0 : Int) < 0 ∨ (-2 : Int) < 0) ∧
    ∃ code, code ≠ 0 ∧
      mainSetup (fun _ => false) 5 4 4 0 (-2) = SetupOutcome.returned code [] :=
  ⟨Or.inr (by decide), setup_rejects_negative (fun _ => false) 5 4 4 0 (-2)
    (Or.inr (by decide))⟩

/-- C13, evaluated at the failing input: on a mesh of one row and three columns, node
`(0, 1)` lies in the grid, but its stencil (branch `i == 0`, source line 80) loads
`g_prev[(i + 1) * g_cols + j]`, whose index `4` is not below `rows * cols = 3`; the
bounds-checked load, the loop body for that node and the pass of the worker owning row
`0` all take the out-of-range branch. -/
theorem stencil_load_out_of_range :
    InGrid oneRowGlobals.g_rows oneRowGlobals.g_cols (0, 1) ∧
    ¬ ((0 + 1) * oneRowGlobals.g_cols + 1 < oneRowGlobals.g_rows * oneRowGlobals.g_cols) ∧
    readPrev oneRowGlobals ((0 + 1) * oneRowGlobals.g_cols + 1) = none ∧
    nodeBody oneRowGlobals 0 1 = none ∧
    thread_func_pass ⟨0, 0⟩ oneRowGlobals = none := by
  refine ⟨by decide, by decide, by decide, by decide, by decide⟩

/-! ## Program order: stores to `g_U` and barrier rounds -/

theorem intRange_cons {lo hi : Int} (h : lo < hi) :
    intRange lo hi = lo :: intRange (lo + 1) hi := by
  unfold intRange
  have e : (hi - lo).toNat = (hi - (lo + 1)).toNat + 1 := by omega
  rw [e, List.range_succ_eq_map, List.map_cons, List.map_map]
  congr 1
  · simp
  · apply List.map_congr_left
    intro d _
    simp only [Function.comp, Nat.succ_eq_add_one]
    push_cast
    ring

theorem count_flatMap_const (a : Event) (L : List Event) (l : List Int) :
    (l.flatMap (fun _ => L)).count a = l.length * L.count a := by
  induction l with
  | nil => simp
  | cons x xs ih =>
    rw [List.flatMap_cons, List.count_append, ih, List.length_cons]
    ring

theorem barrierWaits_append (as bs : List Event) :
    barrierWaits (as ++ bs) = barrierWaits as ++ barrierWaits bs := by
  unfold barrierWaits
  exact List.filter_append _ _

theorem barrierWaits_worker_eq (m : List Int) :
    ∀ l : List Int, l.length = m.length + 1 →
      barrierWaits (l.flatMap (fun _ => [Event.barr1, Event.compute, Event.barr2])) =
        barrierWaits (Event.barr1 :: m.flatMap (fun _ => main_iteration_events)) ++
          [Event.barr2] := by
  induction m with
  | nil =>
    intro l hl
    match l, hl with
    | [x], _ => rfl
  | cons y ys ih =>
    intro l hl
    match l, hl with
    | x :: xs, hl =>
      have hxs : xs.length = ys.length + 1 := by simpa using hl
      have := ih xs hxs
      rw [List.flatMap_cons, barrierWaits_append, this, List.flatMap_cons]
      rw [show (Event.barr1 :: (main_iteration_events ++
          ys.flatMap (fun _ => main_iteration_events))) =
          (Event.barr1 :: main_iteration_events) ++
            ys.flatMap (fun _ => main_iteration_events) from rfl]
      rw [show (Event.barr1 :: ys.flatMap (fun _ => main_iteration_events)) =
          [Event.barr1] ++ ys.flatMap (fun _ => main_iteration_events) from rfl]
      rw [barrierWaits_append, barrierWaits_append]
      rw [show barrierWaits [Event.barr1, Event.compute, Event.barr2] =
          [Event.barr1, Event.barr2] from by decide]
      rw [show barrierWaits (Event.barr1 :: main_iteration_events) =
          [Event.barr1, Event.barr2, Event.barr1] from by decide]
      rw [show barrierWaits [Event.barr1] = [Event.barr1] from by decide]
      simp

theorem rendezvous_append (l r : List Event) : rendezvous l (l ++ r) = ([], r) := by
  induction l with
  | nil => cases r <;> simp [rendezvous]
  | cons c cs ih => simp [rendezvous, ih]

/-- C14, evaluated on the program order of `main`: for every `totalSteps >= 0` the
actions of `main` start with a wait on `barr1`, the store `g_U = sin(g_time)`, and a wait
on `barr2`, so there is a store to `g_U` between a wait on the entry barrier and the
following wait on the exit barrier, and the check that no store lies in such a phase
fails. -/
theorem source_store_in_phase (time : Int) (ht : 0 ≤ time) :
    (∃ rest, main_events time =
      Event.barr1 :: Event.storeU :: Event.barr2 :: rest) ∧
    storesOutsidePhase false (main_events time) = false := by
  have e : main_events time = Event.barr1 :: Event.storeU :: Event.barr2 ::
      ([Event.printBlock, Event.memcpy, Event.memset, Event.barr1] ++
        (intRange (1 + 1) (time + 2)).flatMap (fun _ => main_iteration_events)) := by
    unfold main_events
    rw [intRange_cons (by omega), List.flatMap_cons]
    rfl
  refine ⟨⟨_, e⟩, ?_⟩
  rw [e]
  simp [storesOutsidePhase]

/-- Witness for C14: `totalSteps = 0`, where `main` performs
`barr1, storeU, barr2, printBlock, memcpy, memset, barr1`. -/
theorem source_store_in_phase_witness :
    (0 : Int) ≤ 0 ∧
    main_events 0 = [Event.barr1, Event.storeU, Event.barr2, Event.printBlock,
      Event.memcpy, Event.memset, Event.barr1] ∧
    storesOutsidePhase false (main_events 0) = false :=
  ⟨by decide, by decide, (source_store_in_phase 0 (by decide)).2⟩

/-- C15, evaluated on the program orders of `main` and of `thread_func`: for every
`totalSteps >= 0` the controller and a worker both wait `totalSteps + 2` times on
`barr1`, but the controller waits only `totalSteps + 1` times on `barr2` while the worker
waits `totalSteps + 2` times; the waits of the worker are those of the controller
followed by one more wait on `barr2`, so when all the rounds that can complete have
completed the controller is done and the worker still waits on `barr2`. -/
theorem barrier_rounds_unmatched (time : Int) (ht : 0 ≤ time) :
    ((main_events time).count Event.barr1 : Int) = time + 2 ∧
    ((thread_func_events time).count Event.barr1 : Int) = time + 2 ∧
    ((main_events time).count Event.barr2 : Int) = time + 1 ∧
    ((thread_func_events time).count Event.barr2 : Int) = time + 2 ∧
    barrierWaits (thread_func_events time) =
      barrierWaits (main_events time) ++ [Event.barr2] ∧
    rendezvous (barrierWaits (main_events time)) (barrierWaits (thread_func_events time)) =
      ([], [Event.barr2]) := by
  have hw : barrierWaits (thread_func_events time) =
      barrierWaits (main_events time) ++ [Event.barr2] := by
    unfold thread_func_events main_events
    apply barrierWaits_worker_eq
    rw [length_intRange, length_intRange]
    omega
  refine ⟨?_, ?_, ?_, ?_, hw, ?_⟩
  · unfold main_events
    rw [List.count_cons, count_flatMap_const, length_intRange]
    rw [show main_iteration_events.count Event.barr1 = 1 from by decide]
    simp only [beq_self_eq_true, if_true, mul_one]
    omega
  · unfold thread_func_events
    rw [count_flatMap_const, length_intRange]
    rw [show [Event.barr1, Event.compute, Event.barr2].count Event.barr1 = 1 from by decide]
    omega
  · unfold main_events
    rw [List.count_cons, count_flatMap_const, length_intRange]
    rw [show main_iteration_events.count Event.barr2 = 1 from by decide]
    rw [if_neg (by decide)]
    omega
  · unfold thread_func_events
    rw [count_flatMap_const, length_intRange]
    rw [show [Event.barr1, Event.compute, Event.barr2].count Event.barr2 = 1 from by decide]
    omega
  · rw [hw]
    exact rendezvous_append _ _

/-- Witness for C15: `totalSteps = 0`, where the controller is left with nothing to wait
for and the worker waits on `barr2`. -/
theorem barrier_rounds_unmatched_witness :
    (0 : Int) ≤ 0 ∧
    barrierWaits (main_events 0) = [Event.barr1, Event.barr2, Event.barr1] ∧
    barrierWaits (thread_func_events 0) =
      [Event.barr1, Event.barr2, Event.barr1, Event.barr2] ∧
    rendezvous (barrierWaits (main_events 0)) (barrierWaits (thread_func_events 0)) =
      ([], [Event.barr2]) :=
  ⟨by decide, by decide, by decide,
    (barrier_rounds_unmatched 0 (by decide)).2.2.2.2.2⟩

/-! ## The swap, the initial buffers and the source value of the first phase -/

theorem getElem?_memsetZero (lib : LibFns) (buf : List ℚ) (nbytes k : Nat) :
    (memsetZero lib buf nbytes)[k]? =
      (buf[k]?).map (fun v =>
        if 8 * (k + 1) ≤ nbytes then 0
        else if 8 * k < nbytes then lib.clearLow (nbytes - 8 * k) v
        else v) := by
  unfold memsetZero
  rw [List.getElem?_mapIdx]

theorem memsetZero_keeps (lib : LibFns) (buf : List ℚ) (nbytes k : Nat)
    (h : nbytes ≤ 8 * k) : (memsetZero lib buf nbytes)[k]? = buf[k]? := by
  rw [getElem?_memsetZero]
  cases buf[k]? with
  | none => rfl
  | some v =>
    simp only [Option.map_some']
    rw [if_neg (by omega), if_neg (by omega)]

theorem swapPhase_keeps (lib : LibFns) (m : Globals) (k : Nat)
    (h : (m.g_rows * m.g_cols).toNat ≤ 8 * k) :
    (swapPhase lib m).g_cur[k]? = m.g_cur[k]? :=
  memsetZero_keeps lib m.g_cur _ k h

theorem scenario_pass (cur : List ℚ) (hlen : cur.length = 16) :
    ∃ s', thread_func_pass ⟨0, 3⟩ (scenarioGlobals cur) = some s' ∧
      s'.g_cur = [220, 44, 44, 220, 44, 0, 0, 44, 44, 0, 0, 44, 220, 44, 44, 220] ∧
      s'.g_prev = scenarioPrev ∧ s'.g_rows = 4 ∧ s'.g_cols = 4 := by
  have hs : GridShape (scenarioGlobals cur) := by
    refine ⟨?_, ?_, ?_, ?_⟩
    · show (2 : Int) ≤ 4
      decide
    · show (2 : Int) ≤ 4
      decide
    · show scenarioPrev.length = ((4 : Int) * 4).toNat
      decide
    · show cur.length = ((4 : Int) * 4).toNat
      rw [hlen]
      decide
  have hv : ValidWorkers (scenarioGlobals cur).g_rows 1 := by
    show ValidWorkers 4 1
    exact ⟨by decide, by decide⟩
  have hpart : partitionRanges (scenarioGlobals cur).g_rows 1 = [⟨0, 3⟩] := by
    show partitionRanges 4 1 = [⟨0, 3⟩]
    decide
  have hp : List.Perm [(⟨0, 3⟩ : ThreadRecord)]
      (partitionRanges (scenarioGlobals cur).g_rows 1) := by
    rw [hpart]
  obtain ⟨s', hrun, a1, a2, a3, a4, -⟩ := computePhase_spec hs hv hp
  have hrun2 : thread_func_pass ⟨0, 3⟩ (scenarioGlobals cur) = some s' := by
    simpa [computePhase] using hrun
  refine ⟨s', hrun2, ?_, a2, a3, a4⟩
  rw [a1]
  simp [stepGrid, List.range, List.range.loop, nodeSpec, isCorner, updateRule,
    neighbourSum, neighboursInside, neighbours, InGrid, cellAt, g_h, g_C, g_R,
    scenarioPrev, scenarioGlobals]
  norm_num

/-- C16, evaluated at the failing input: in the single-step scenario (`4 × 4` nodes, one
worker), after the pass has computed `current`, the swap of `main` leaves in `previous`
the grid `current` held before, but `memset(g_cur, 0, g_rows * g_cols)` clears `16`
bytes, that is the first two cells only: the other fourteen cells of `current` keep their
values, and node `(0, 2)` still holds `44`. -/
theorem swap_clears_two_cells (lib : LibFns) :
    ∃ s', thread_func_pass ⟨0, 3⟩ (scenarioGlobals (List.replicate 16 0)) = some s' ∧
      (swapPhase lib s').g_prev = s'.g_cur ∧
      (swapPhase lib s').g_cur =
        [0, 0, 44, 220, 44, 0, 0, 44, 44, 0, 0, 44, 220, 44, 44, 220] ∧
      cellAt 4 (swapPhase lib s').g_cur 0 2 = 44 := by
  obtain ⟨s', hrun, hcur, hprev, hrows, hcols⟩ := scenario_pass (List.replicate 16 0) rfl
  have h2 : (swapPhase lib s').g_cur =
      [0, 0, 44, 220, 44, 0, 0, 44, 44, 0, 0, 44, 220, 44, 44, 220] := by
    simp [swapPhase, memsetZero, hcur, hrows, hcols, List.mapIdx_cons]
  refine ⟨s', hrun, ?_, h2, ?_⟩
  · simp [swapPhase, memcpyCells, hcur, hprev, hrows, hcols, scenarioPrev]
  · rw [h2]
    simp [cellAt]

theorem stepGrid_two_by_two (U : ℚ) (prev : List ℚ) : stepGrid 2 2 U prev = [U, U, U, U] := by
  simp [stepGrid, List.range, List.range.loop, nodeSpec, isCorner]

theorem sample_run (lib : LibFns) (time : Int) (prev0 : List ℚ) (hlp : prev0.length = 4) :
    ∃ st, main_loop lib sampleSchedule 2 2 time prev0 [0, 0, 0, 0] = some st ∧
      RunInv lib sampleSchedule 2 2 time prev0 (time + 1).toNat st :=
  main_loop_spec lib sampleSchedule time (show (2 : Int) ≤ 2 by decide)
    (show (2 : Int) ≤ 2 by decide)
    (show prev0.length = ((2 : Int) * 2).toNat by rw [hlp]; decide)
    (show ([0, 0, 0, 0] : List ℚ).length = ((2 : Int) * 2).toNat by decide)
    (show ValidWorkers 2 1 from ⟨by decide, by decide⟩) (fun _ => List.Perm.refl _)

/-- Counterexample to C17 as stated: on a `2 × 2` mesh whose buffers hold `0` when
allocated, the first block written is `0` at every node, the four corners included (not
the source value `220`); and with the same launch parameters but other values in the
allocated memory the first block written is different. -/
theorem first_snapshot_counterexample :
    ∃ st st',
      main_loop sampleLib sampleSchedule 2 2 0 [0, 0, 0, 0] [0, 0, 0, 0] = some st ∧
      st.out = [(1, [0, 0, 0, 0])] ∧
      main_loop sampleLib sampleSchedule 2 2 0 [1, 2, 3, 4] [0, 0, 0, 0] = some st' ∧
      st'.out = [(1, [1, 2, 3, 4])] := by
  obtain ⟨st, h1, i1⟩ := sample_run sampleLib 0 [0, 0, 0, 0] rfl
  obtain ⟨st', h2, i2⟩ := sample_run sampleLib 0 [1, 2, 3, 4] rfl
  refine ⟨st, st', h1, ?_, h2, ?_⟩
  · rw [i1.2.2.2.2.2.2.1]
    simp [List.range, List.range.loop, gridAfter]
  · rw [i2.2.2.2.2.2.2.1]
    simp [List.range, List.range.loop, gridAfter]

/-- C17, amended. `main` stores nothing into the grid buffers before the first
computation phase: they hold what they held when allocated. On a mesh of at least
`2 × 2` nodes with a valid partition and `totalSteps >= 0`, the first block written is
that initial content of `previous`, and the first computed grid is one stencil step from
it with the source value read in the first phase, which is the value its four corners
hold. -/
theorem first_snapshot_is_allocation (lib : LibFns) (sch : Schedule)
    (rows cols time n : Int) (prev0 cur0 : List ℚ) (ht : 0 ≤ time)
    (hr : 2 ≤ rows) (hc : 2 ≤ cols)
    (hlp : prev0.length = (rows * cols).toNat) (hlc : cur0.length = (rows * cols).toNat)
    (hv : ValidWorkers rows n) (ho : ∀ k, (sch.order k).Perm (partitionRanges rows n)) :
    (initGlobals rows cols time prev0 cur0).g_prev = prev0 ∧
    (initGlobals rows cols time prev0 cur0).g_cur = cur0 ∧
    ∃ st m, main_loop lib sch rows cols time prev0 cur0 = some st ∧
      st.out[0]? = some (1, prev0) ∧ st.seen[0]? = some m ∧
      m.g_cur = stepGrid rows cols (sourceAt lib sch time 1) prev0 ∧
      cellAt cols m.g_cur 0 0 = sourceAt lib sch time 1 ∧
      cellAt cols m.g_cur 0 (cols - 1) = sourceAt lib sch time 1 ∧
      cellAt cols m.g_cur (rows - 1) 0 = sourceAt lib sch time 1 ∧
      cellAt cols m.g_cur (rows - 1) (cols - 1) = sourceAt lib sch time 1 := by
  refine ⟨rfl, rfl, ?_⟩
  obtain ⟨st, hrun, hinv⟩ := main_loop_spec lib sch time hr hc hlp hlc hv ho
  have hpos : 0 < (time + 1).toNat := by omega
  have hseen := hinv.2.2.2.2.2.2.2.1
  have hm : st.seen[0]? = some (st.seen.get ⟨0, by rw [hseen]; exact hpos⟩) :=
    List.getElem?_eq_getElem (by rw [hseen]; exact hpos)
  obtain ⟨-, b2, -, -⟩ := hinv.2.2.2.2.2.2.2.2 0 _ hm
  have hout := runInv_out_getElem? hinv hpos
  have hcur : (st.seen.get ⟨0, by rw [hseen]; exact hpos⟩).g_cur =
      stepGrid rows cols (sourceAt lib sch time 1) prev0 := by
    rw [b2]
    rfl
  have hcorner : ∀ i j, InGrid rows cols (i, j) → isCorner rows cols i j →
      cellAt cols (stepGrid rows cols (sourceAt lib sch time 1) prev0) i j =
        sourceAt lib sch time 1 := by
    intro i j hg hcor
    rw [cellAt_stepGrid _ _ hg]
    unfold nodeSpec
    rw [if_pos hcor]
  refine ⟨st, _, hrun, ?_, hm, hcur, ?_, ?_, ?_, ?_⟩
  · rw [hout]
    rfl
  · rw [hcur]
    exact hcorner 0 0 ⟨le_refl _, by simp only; omega, le_refl _, by simp only; omega⟩
      ⟨Or.inl rfl, Or.inl rfl⟩
  · rw [hcur]
    exact hcorner 0 (cols - 1)
      ⟨le_refl _, by simp only; omega, by simp only; omega, by simp only; omega⟩
      ⟨Or.inl rfl, Or.inr rfl⟩
  · rw [hcur]
    exact hcorner (rows - 1) 0
      ⟨by simp only; omega, by simp only; omega, le_refl _, by simp only; omega⟩
      ⟨Or.inr rfl, Or.inl rfl⟩
  · rw [hcur]
    exact hcorner (rows - 1) (cols - 1)
      ⟨by simp only; omega, by simp only; omega, by simp only; omega, by simp only; omega⟩
      ⟨Or.inr rfl, Or.inr rfl⟩

/-- Witness for C17, amended: a `2 × 2` mesh allocated with the values `1, 2, 3, 4`. -/
theorem first_snapshot_is_allocation_witness :
    (0 : Int) ≤ 0 ∧ ValidWorkers 2 1 ∧
    ∃ st m, main_loop sampleLib sampleSchedule 2 2 0 [1, 2, 3, 4] [0, 0, 0, 0] = some st ∧
      st.out[0]? = some (1, [1, 2, 3, 4]) ∧ st.seen[0]? = some m ∧
      m.g_cur = stepGrid 2 2 (sourceAt sampleLib sampleSchedule 0 1) [1, 2, 3, 4] :=
  ⟨by decide, ⟨by decide, by decide⟩,
    (first_snapshot_is_allocation sampleLib sampleSchedule 2 2 0 1 [1, 2, 3, 4]
      [0, 0, 0, 0] (by decide) (by decide) (by decide) (by decide) (by decide)
      ⟨by decide, by decide⟩ (fun _ => List.Perm.refl _)).2.2.imp
      (fun _ h => h.imp (fun _ h2 => ⟨h2.1, h2.2.1, h2.2.2.1, h2.2.2.2.1⟩))⟩

/-- C18, evaluated at the failing input: a `2 × 2` mesh, `totalSteps = 1`, and a
schedule in which the workers read `g_U` before the store `g_U = sin(g_time)` made by
`main` during the same phase takes effect. The first phase clamps the corners to the
initial `220`, the second to `sin(1)`: the source value of a phase depends on which
phase it is. -/
theorem first_phase_source (lib : LibFns) :
    sourceAt lib sampleSchedule 1 1 = 220 ∧
    sourceAt lib sampleSchedule 1 2 = lib.sinOf 1 ∧
    ∃ st, main_loop lib sampleSchedule 2 2 1 [0, 0, 0, 0] [0, 0, 0, 0] = some st ∧
      st.seen.map (fun m => m.g_cur) =
        [[220, 220, 220, 220], [lib.sinOf 1, lib.sinOf 1, lib.sinOf 1, lib.sinOf 1]] := by
  have s1 : sourceAt lib sampleSchedule 1 1 = 220 := by
    simp [sourceAt, sampleSchedule, g_U_init]
  have s2 : sourceAt lib sampleSchedule 1 2 = lib.sinOf 1 := by
    simp [sourceAt]
  refine ⟨s1, s2, ?_⟩
  obtain ⟨st, hrun, hinv⟩ := sample_run lib 1 [0, 0, 0, 0] rfl
  refine ⟨st, hrun, ?_⟩
  have hlen : st.seen.length = 2 := hinv.2.2.2.2.2.2.2.1
  obtain ⟨m0, m1, hs⟩ := List.length_eq_two.mp hlen
  have h0 := (hinv.2.2.2.2.2.2.2.2 0 m0 (by rw [hs]; rfl)).2.1
  have h1 := (hinv.2.2.2.2.2.2.2.2 1 m1 (by rw [hs]; rfl)).2.1
  rw [hs]
  simp only [List.map_cons, List.map_nil]
  rw [h0, h1]
  simp only [gridAfter, stepGrid_two_by_two]
  norm_num
  exact ⟨s1, s2⟩

end RCGrid
